import Mathlib

/-!
# A shallow embedding of `scp.py` (scp1 protocol client)

This file embeds the protocol engine of `scp.py` — the scp1 wire codec,
the acknowledgement handshake, the directory-stack bookkeeping on both the
send and receive side, and the streaming transfer loops — as executable
Lean definitions, and proves (or refutes) the frozen specification claims
about them.

Wire-level byte strings are modelled as `List Char` (the payloads that the
claims exercise are ASCII; UTF-8 decoding at error-message boundaries is
modelled as the identity on these characters).  Channel input is modelled
as a list of pending packets plus an end-of-stream flag; `recv(k)` returns
up to `k` bytes from the first pending packet, leaving the remainder
buffered, which is the behaviour of a stream socket.  Loops that the
Python source writes as `while` loops are given explicit fuel; every
caller passes fuel that is proven (or evident) to be sufficient on the
domains the theorems quantify over, and exhaustion is reported as a
distinguished error value.
-/

/-- Wire-level byte strings (one `Char` per byte; payloads are ASCII). -/
abbrev B := List Char

/-! ## Python `bytes` primitives used by `scp.py` -/

/-- The characters stripped by Python's `bytes.strip()`. -/
def pySpace (c : Char) : Bool :=
  c = ' ' || c = '\t' || c = '\n' || c = '\x0d' || c = '\x0b' || c = '\x0c'

/-- Python `s.strip()`: remove leading and trailing whitespace. -/
def pyStrip (s : B) : B :=
  ((s.dropWhile pySpace).reverse.dropWhile pySpace).reverse

/-- Python `s.split(b" ", maxsplit)`: split on every single space
(`maxsplit = none` for unlimited).  Adjacent separators yield empty
fields, as in Python. -/
def pySplitSp (maxsplit : Option Nat) (s : B) : List B :=
  if maxsplit = some 0 then [s]
  else
    let a := s.takeWhile (· ≠ ' ')
    if _h : a.length = s.length then [s]
    else a :: pySplitSp (maxsplit.map Nat.pred) (s.drop (a.length + 1))
termination_by s.length
decreasing_by
  simp only [List.length_drop]
  have hle : a.length ≤ s.length := (List.takeWhile_sublist _).length_le
  omega

/-- `basename.replace("\n", "\\^J")` (lines 335 and 395 of the source):
filenames cannot carry a literal newline on the wire. -/
def escapeNl : B → B
  | [] => []
  | c :: cs => (if c = '\n' then ['\\', '^', 'J'] else [c]) ++ escapeNl cs

/-! ## Decimal / octal formatting and parsing

`scp.py` formats fields with `f"{n:d}"` and `f"{n:04o}"` and parses them
with `int(s)` and `int(s, 8)`.  `pyIntNat` models `int` on the unsigned
digit strings this protocol exchanges (surrounding whitespace allowed, as
in Python; sign, underscore and prefix forms are not modelled — no peer of
this codec produces them). -/

/-- The digit character for a value `d < 10`. -/
def digitChar (d : Nat) : Char := Char.ofNat (48 + d)

/-- The base-`b` digits of `n`, most significant first (`b ≥ 2`). -/
def natDigits (b : Nat) (n : Nat) : B :=
  if _h : n < b ∨ b ≤ 1 then [digitChar n]
  else natDigits b (n / b) ++ [digitChar (n % b)]
termination_by n
decreasing_by
  have hb : 1 < b := by omega
  exact Nat.div_lt_self (by omega) hb

/-- `f"{n:d}"` / `str(n)`. -/
def fmtDec (n : Nat) : B := natDigits 10 n

/-- `f"{n:04o}"`: octal, zero-padded to width 4. -/
def fmtOct4 (n : Nat) : B :=
  let ds := natDigits 8 n
  List.replicate (4 - ds.length) '0' ++ ds

/-- Value of one digit character in base `b ≤ 10`. -/
def digitVal (b : Nat) (c : Char) : Option Nat :=
  let v := c.toNat - 48
  if 48 ≤ c.toNat ∧ v < b then some v else none

/-- Accumulating digit-string evaluator. -/
def digitsValGo (b : Nat) (acc : Nat) : B → Option Nat
  | [] => some acc
  | c :: cs =>
    match digitVal b c with
    | some v => digitsValGo b (acc * b + v) cs
    | none => none

/-- Value of a nonempty all-digit string in base `b`. -/
def digitsVal (b : Nat) (s : B) : Option Nat :=
  if s = [] then none else digitsValGo b 0 s

/-- Python `int(s, b)` on the unsigned digit strings of this protocol. -/
def pyIntNat (b : Nat) (s : B) : Option Nat := digitsVal b (pyStrip s)

/-! ## The five control records and their wire codec -/

/-- A decoded scp1 control record: `C` (file header), `D` (directory
push), `E` (directory pop), `T` (timestamp). -/
inductive ControlRecord where
  | file (mode : Nat) (size : Nat) (name : B)
  | push (mode : Nat) (name : B)
  | pop
  | time (mtime : Nat) (atime : Nat)
deriving DecidableEq

/-- Send-side wire encoding of a control record, as emitted by
`_send_file` (`f"C{mode} {size} {basename}\n"` with the mode rendered by
`_read_stats` as `f"{st_mode:04o}"`), `_send_pushd`
(`f"D{mode} 0 {basename}\n"`), `_send_popd` (`b"E\n"`) and `_send_time`
(`f"T{mtime:d} 0 {atime:d} 0\n"`).  Filename newlines are escaped as
`\^J` before formatting. -/
def encodeRecord : ControlRecord → B
  | .file mode size name =>
      'C' :: fmtOct4 mode ++ ' ' :: fmtDec size ++ ' ' :: escapeNl name ++ ['\n']
  | .push mode name =>
      'D' :: fmtOct4 mode ++ ' ' :: '0' :: ' ' :: escapeNl name ++ ['\n']
  | .pop => ['E', '\n']
  | .time mtime atime =>
      'T' :: fmtDec mtime ++ ' ' :: '0' :: ' ' :: fmtDec atime ++ ' ' :: '0' :: ['\n']

/-- Field parsing of a `C` payload, from `_recv_file` lines 468–473:
`parts = cmd.strip().split(b" ", 2); mode = int(parts[0], 8);
size = int(parts[1]); name = parts[2]`. -/
def parseFileLine (cmd : B) : Option (Nat × Nat × B) :=
  match pySplitSp (some 2) (pyStrip cmd) with
  | [p0, p1, p2] => do
      let mode ← pyIntNat 8 p0
      let size ← pyIntNat 10 p1
      pure (mode, size, p2)
  | _ => none

/-- Field parsing of a `D` payload, from `_recv_pushd` lines 531–534:
`parts = cmd.split(b" ", 2); mode = int(parts[0], 8); name = parts[2]`
(the middle field is ignored, and there is no `strip`). -/
def parsePushLine (cmd : B) : Option (Nat × B) :=
  match pySplitSp (some 2) cmd with
  | [p0, _, p2] => do
      let mode ← pyIntNat 8 p0
      pure (mode, p2)
  | _ => none

/-- Field parsing of a `T` payload, from `_set_time` lines 456–458:
`times = cmd.split(b" "); mtime = int(times[0]);
atime = int(times[2]) or mtime`.  Python's `or` substitutes `mtime`
whenever the parsed `atime` is `0`; fields past the third are never
examined. -/
def parseTimeLine (cmd : B) : Option (Nat × Nat) :=
  match pySplitSp none cmd with
  | t0 :: _ :: t2 :: _ => do
      let mtime ← pyIntNat 10 t0
      let a ← pyIntNat 10 t2
      pure (mtime, if a = 0 then mtime else a)
  | _ => none

/-- Receive-side decoding of one wire line, combining the framing of
`_recv_all` lines 447–452 (the message must end in `\n`, which is
stripped; the first byte selects the handler; an unknown tag is a peer
error) with the field parsing done inside each handler.  `E` ignores its
payload, exactly as `_recv_popd` does. -/
def decodeRecord (msg : B) : Option ControlRecord :=
  if msg.getLast? = some '\n' then
    match msg.dropLast with
    | [] => none
    | code :: cmd =>
      if code = 'C' then (parseFileLine cmd).map fun (mo, sz, nm) => .file mo sz nm
      else if code = 'D' then (parsePushLine cmd).map fun (mo, nm) => .push mo nm
      else if code = 'E' then some .pop
      else if code = 'T' then (parseTimeLine cmd).map fun (mt, at') => .time mt at'
      else none
  else none

/-! ## Remote command lines (`put`, `getfo`, `putfo`) -/

/-- The command issued by `put` (lines 205–206):
`self.scp_command + b" " + (b"-t ", b"-r -t ")[recursive]` followed by the
sanitized remote path.  The path argument here is the already-sanitized
path (the sanitizer is an external, pluggable collaborator). -/
def putCommandLine (recursive : Bool) (path : B) : B :=
  "scp".toList ++ ' ' :: (if recursive then "-r -t ".toList else "-t ".toList) ++ path

/-- Python `b" ".flatten(xs)`. -/
def spJoin : List B → B
  | [] => []
  | [t] => t
  | t :: u :: us => t ++ ' ' :: spJoin (u :: us)

/-- The command issued by `getfo` (lines 285–290):
`self.scp_command + rcsv + prsv + b" -f " + b" ".flatten(remote_path)` with
`rcsv = b" -r"` iff recursive and `prsv = b" -p"` iff preserving times. -/
def getfoCommandLine (recursive preserve : Bool) (paths : List B) : B :=
  "scp".toList ++ (if recursive then " -r".toList else [])
    ++ (if preserve then " -p".toList else [])
    ++ " -f ".toList ++ spJoin paths

/-- The command issued by `putfo` (line 248):
`self.scp_command + b" -v -t "` followed by the sanitized remote path. -/
def putfoCommandLine (path : B) : B :=
  "scp -v -t ".toList ++ path

/-- Tokens joined by single spaces — the shape in which claim C3 states
the command lines. -/
def joinTokens : List B → B
  | [] => []
  | [t] => t
  | t :: u :: us => t ++ ' ' :: joinTokens (u :: us)

/-- The upload command as claim C3 states it: `scp`, `-r` iff recursive,
`-p` iff preserving times, `-t`, path. -/
def claimedPutCommand (recursive preserve : Bool) (path : B) : B :=
  joinTokens (["scp".toList]
    ++ (if recursive then ["-r".toList] else [])
    ++ (if preserve then ["-p".toList] else [])
    ++ ["-t".toList, path])

/-- The download command as claim C3 states it. -/
def claimedGetfoCommand (recursive preserve : Bool) (paths : List B) : B :=
  joinTokens (["scp".toList]
    ++ (if recursive then ["-r".toList] else [])
    ++ (if preserve then ["-p".toList] else [])
    ++ ["-f".toList] ++ paths)

/-! ## Basic lemmas: digit strings, stripping and splitting -/

lemma escapeNl_id {n : B} (h : '\n' ∉ n) : escapeNl n = n := by
  induction n with
  | nil => rfl
  | cons c cs ih =>
    have hc : c ≠ '\n' := fun hc => h (hc ▸ List.mem_cons_self c cs)
    simp only [escapeNl, if_neg hc, List.singleton_append, List.cons.injEq, true_and]
    exact ih fun hm => h (List.mem_cons_of_mem c hm)

lemma digitChar_toNat {d : Nat} (h : d < 10) : (digitChar d).toNat = 48 + d := by
  unfold digitChar; interval_cases d <;> decide

lemma digitVal_digitChar {b d : Nat} (hb : b ≤ 10) (hd : d < b) :
    digitVal b (digitChar d) = some d := by
  have h10 : d < 10 := lt_of_lt_of_le hd hb
  simp [digitVal, digitChar_toNat h10, hd]

lemma pySpace_digitChar {d : Nat} (h : d < 10) : pySpace (digitChar d) = false := by
  unfold digitChar; interval_cases d <;> decide

/-- Every character of `natDigits b n` is a digit character below `b`. -/
lemma natDigits_chars {b n : Nat} (hb : 2 ≤ b) (hb10 : b ≤ 10) :
    ∀ c ∈ natDigits b n, ∃ d, d < b ∧ c = digitChar d := by
  induction n using Nat.strong_induction_on with
  | _ n ih =>
    unfold natDigits
    split
    · next h =>
      have hn : n < b := by omega
      intro c hc
      simp only [List.mem_singleton] at hc
      exact ⟨n, hn, hc⟩
    · next h =>
      intro c hc
      rcases List.mem_append.mp hc with hm | hm
      · exact ih (n / b) (Nat.div_lt_self (by omega) (by omega)) c hm
      · simp only [List.mem_singleton] at hm
        exact ⟨n % b, Nat.mod_lt _ (by omega), hm⟩

lemma natDigits_ne_nil {b n : Nat} : natDigits b n ≠ [] := by
  unfold natDigits; split <;> simp

lemma digitsValGo_append (b acc : Nat) (u v : B) :
    digitsValGo b acc (u ++ v)
      = (digitsValGo b acc u).bind fun a => digitsValGo b a v := by
  induction u generalizing acc with
  | nil => simp [digitsValGo]
  | cons c cs ih =>
    simp only [List.cons_append, digitsValGo]
    cases digitVal b c with
    | none => rfl
    | some w => simp [ih]

lemma digitsValGo_natDigits {b : Nat} (hb : 2 ≤ b) (hb10 : b ≤ 10) (n : Nat) :
    ∀ acc, digitsValGo b acc (natDigits b n)
      = some (acc * b ^ (natDigits b n).length + n) := by
  induction n using Nat.strong_induction_on with
  | _ n ih =>
    intro acc
    unfold natDigits
    split
    · next h =>
      have hn : n < b := by omega
      simp [digitsValGo, digitVal_digitChar hb10 hn]
    · next h =>
      have hlt : n / b < n := Nat.div_lt_self (by omega) (by omega)
      rw [digitsValGo_append, ih (n / b) hlt acc]
      have hmod : n % b < b := Nat.mod_lt _ (by omega)
      have hstep : digitsValGo b (acc * b ^ (natDigits b (n / b)).length + n / b)
          [digitChar (n % b)]
          = some ((acc * b ^ (natDigits b (n / b)).length + n / b) * b + n % b) := by
        simp [digitsValGo, digitVal_digitChar hb10 hmod]
      rw [Option.some_bind, hstep, List.length_append, List.length_singleton]
      congr 1
      have h2 : n / b * b + n % b = n := Nat.div_add_mod' n b
      calc (acc * b ^ (natDigits b (n / b)).length + n / b) * b + n % b
          = acc * (b ^ (natDigits b (n / b)).length * b) + (n / b * b + n % b) := by ring
        _ = acc * b ^ ((natDigits b (n / b)).length + 1) + n := by rw [pow_succ, h2]

lemma digitsVal_natDigits {b : Nat} (hb : 2 ≤ b) (hb10 : b ≤ 10) (n : Nat) :
    digitsVal b (natDigits b n) = some n := by
  rw [digitsVal, if_neg natDigits_ne_nil, digitsValGo_natDigits hb hb10]
  simp

lemma digitsValGo_zeros (b : Nat) (hb : 2 ≤ b) (k : Nat) (v : B) :
    digitsValGo b 0 (List.replicate k '0' ++ v) = digitsValGo b 0 v := by
  induction k with
  | zero => simp
  | succ k ih =>
    have h0 : digitVal b '0' = some 0 := by
      have h48 : ('0' : Char).toNat = 48 := by decide
      simp only [digitVal, h48]
      rw [if_pos ⟨le_refl _, by omega⟩]
    simp only [List.replicate_succ, List.cons_append, digitsValGo, h0]
    simpa using ih

lemma pyStrip_id {s : B} (hs : s ≠ [])
    (hhead : ∀ c, s.head? = some c → pySpace c = false)
    (hlast : ∀ c, s.getLast? = some c → pySpace c = false) : pyStrip s = s := by
  unfold pyStrip
  obtain ⟨c, cs, rfl⟩ := List.exists_cons_of_ne_nil hs
  have hc : pySpace c = false := hhead c rfl
  rw [List.dropWhile_cons, hc]
  simp only [Bool.false_eq_true, if_false]
  obtain ⟨d, ds, hrev⟩ : ∃ d ds, (c :: cs).reverse = d :: ds :=
    List.exists_cons_of_ne_nil (by simp)
  have hd : pySpace d = false := by
    apply hlast
    rw [List.getLast?_eq_head?_reverse, hrev]
    rfl
  rw [hrev, List.dropWhile_cons, hd]
  simp only [Bool.false_eq_true, if_false]
  rw [← hrev, List.reverse_reverse]

lemma takeWhile_middle {p : Char → Bool} {u : B} {a : Char} (v : B)
    (hu : ∀ c ∈ u, p c = true) (ha : p a = false) :
    (u ++ a :: v).takeWhile p = u := by
  induction u with
  | nil => simp [List.takeWhile_cons, ha]
  | cons c cs ih =>
    have hc : p c = true := hu c (List.mem_cons_self c cs)
    simp only [List.cons_append, List.takeWhile_cons, hc, if_true, List.cons.injEq, true_and]
    exact ih fun x hx => hu x (List.mem_cons_of_mem c hx)

lemma pySplitSp_cons {ms : Option Nat} {u : B} (v : B)
    (hu : ∀ c ∈ u, c ≠ ' ') (hms : ms ≠ some 0) :
    pySplitSp ms (u ++ ' ' :: v) = u :: pySplitSp (ms.map Nat.pred) v := by
  have htw : (u ++ ' ' :: v).takeWhile (· ≠ ' ') = u :=
    takeWhile_middle v (fun c hc => by simpa using hu c hc) (by simp)
  have hdrop : (u ++ ' ' :: v).drop (u.length + 1) = v := by
    calc (u ++ ' ' :: v).drop (u.length + 1)
        = ((u ++ [' ']) ++ v).drop (u ++ [' ']).length := by simp
      _ = v := List.drop_left _ _
  rw [pySplitSp, if_neg hms]
  simp only [htw, hdrop]
  rw [dif_neg (by simp only [List.length_append, List.length_cons]; omega :
    ¬ u.length = (u ++ ' ' :: v).length)]

lemma pySplitSp_single {ms : Option Nat} {u : B} (hu : ∀ c ∈ u, c ≠ ' ') :
    pySplitSp ms u = [u] := by
  have htw : u.takeWhile (· ≠ ' ') = u :=
    List.takeWhile_eq_self_iff.mpr fun x hx => by simpa using hu x hx
  rw [pySplitSp]
  by_cases hms : ms = some 0
  · rw [if_pos hms]
  · rw [if_neg hms]
    simp only [ne_eq, decide_not] at htw
    simp [htw]

/-! ## Formatting/parsing inverse lemmas -/

lemma pySpace_false_ne_sp {c : Char} (h : pySpace c = false) : c ≠ ' ' := by
  intro hc; subst hc; simp [pySpace] at h

lemma natDigits_not_space {b n : Nat} (hb : 2 ≤ b) (hb10 : b ≤ 10) :
    ∀ c ∈ natDigits b n, pySpace c = false := by
  intro c hc
  obtain ⟨d, hd, rfl⟩ := natDigits_chars hb hb10 c hc
  exact pySpace_digitChar (lt_of_lt_of_le hd hb10)

lemma fmtDec_not_space (n : Nat) : ∀ c ∈ fmtDec n, pySpace c = false :=
  natDigits_not_space (by omega) (by omega)

lemma fmtOct4_not_space (n : Nat) : ∀ c ∈ fmtOct4 n, pySpace c = false := by
  intro c hc
  rcases List.mem_append.mp hc with hm | hm
  · rw [List.eq_of_mem_replicate hm]; decide
  · exact natDigits_not_space (by omega) (by omega) c hm

lemma fmtOct4_ne_nil (n : Nat) : fmtOct4 n ≠ [] := by
  unfold fmtOct4
  intro h
  exact natDigits_ne_nil (List.append_eq_nil.mp h).2

lemma pyStrip_nil : pyStrip [] = [] := rfl

lemma pyStrip_id_of_no_space {s : B} (h : ∀ c ∈ s, pySpace c = false) :
    pyStrip s = s := by
  rcases eq_or_ne s [] with rfl | hs
  · rfl
  · exact pyStrip_id hs
      (fun c hc => h c (List.mem_of_mem_head? (by simp [hc])))
      (fun c hc => h c (List.mem_of_mem_getLast? (by simp [hc])))

lemma pyIntNat_fmtDec (n : Nat) : pyIntNat 10 (fmtDec n) = some n := by
  unfold pyIntNat
  rw [pyStrip_id_of_no_space (fmtDec_not_space n)]
  exact digitsVal_natDigits (by omega) (by omega) n

lemma pyIntNat_fmtOct4 (n : Nat) : pyIntNat 8 (fmtOct4 n) = some n := by
  unfold pyIntNat
  rw [pyStrip_id_of_no_space (fmtOct4_not_space n)]
  rw [digitsVal, if_neg (fmtOct4_ne_nil n)]
  show digitsValGo 8 0 (List.replicate _ '0' ++ natDigits 8 n) = some n
  rw [digitsValGo_zeros 8 (by omega)]
  have h := digitsVal_natDigits (b := 8) (by omega) (by omega) n
  rwa [digitsVal, if_neg natDigits_ne_nil] at h

/-- Characters of digit strings are never the space separator. -/
lemma fmtDec_ne_sp (n : Nat) : ∀ c ∈ fmtDec n, c ≠ ' ' :=
  fun c hc => pySpace_false_ne_sp (fmtDec_not_space n c hc)

lemma fmtOct4_ne_sp (n : Nat) : ∀ c ∈ fmtOct4 n, c ≠ ' ' :=
  fun c hc => pySpace_false_ne_sp (fmtOct4_not_space n c hc)

lemma parseFileLine_inv (m sz : Nat) (name : B) (hne : name ≠ [])
    (hlast : ∀ c, name.getLast? = some c → pySpace c = false) :
    parseFileLine (fmtOct4 m ++ ' ' :: (fmtDec sz ++ ' ' :: name)) = some (m, sz, name) := by
  have hstrip : pyStrip (fmtOct4 m ++ ' ' :: (fmtDec sz ++ ' ' :: name))
      = fmtOct4 m ++ ' ' :: (fmtDec sz ++ ' ' :: name) := by
    apply pyStrip_id (by simp [fmtOct4_ne_nil m])
    · intro c hc
      rw [List.head?_append_of_ne_nil _ (fmtOct4_ne_nil m)] at hc
      exact fmtOct4_not_space m c (List.mem_of_mem_head? (by simp [hc]))
    · intro c hc
      have : (fmtOct4 m ++ ' ' :: (fmtDec sz ++ ' ' :: name)).getLast? = name.getLast? := by
        have h1 : fmtOct4 m ++ ' ' :: (fmtDec sz ++ ' ' :: name)
            = (fmtOct4 m ++ ' ' :: fmtDec sz ++ [' ']) ++ name := by simp
        rw [h1, List.getLast?_append_of_ne_nil _ hne]
      rw [this] at hc
      exact hlast c hc
  unfold parseFileLine
  rw [hstrip, pySplitSp_cons _ (fmtOct4_ne_sp m) (by simp)]
  rw [show (Option.map Nat.pred (some 2)) = some 1 from rfl]
  rw [pySplitSp_cons name (fmtDec_ne_sp sz) (by simp)]
  rw [show (Option.map Nat.pred (some 1)) = some 0 from rfl]
  rw [show pySplitSp (some 0) name = [name] from by rw [pySplitSp]; simp]
  simp [pyIntNat_fmtOct4, pyIntNat_fmtDec]

lemma parsePushLine_inv (m : Nat) (name : B) :
    parsePushLine (fmtOct4 m ++ ' ' :: '0' :: ' ' :: name) = some (m, name) := by
  unfold parsePushLine
  rw [show fmtOct4 m ++ ' ' :: '0' :: ' ' :: name
      = fmtOct4 m ++ ' ' :: (['0'] ++ ' ' :: name) from by simp]
  rw [pySplitSp_cons _ (fmtOct4_ne_sp m) (by simp)]
  rw [show (Option.map Nat.pred (some 2)) = some 1 from rfl]
  rw [pySplitSp_cons name (by decide) (by simp)]
  rw [show (Option.map Nat.pred (some 1)) = some 0 from rfl]
  rw [show pySplitSp (some 0) name = [name] from by rw [pySplitSp]; simp]
  simp [pyIntNat_fmtOct4]

lemma parseTimeLine_inv (mt at' : Nat) :
    parseTimeLine (fmtDec mt ++ ' ' :: '0' :: ' ' :: (fmtDec at' ++ ' ' :: ['0']))
      = some (mt, if at' = 0 then mt else at') := by
  unfold parseTimeLine
  rw [show fmtDec mt ++ ' ' :: '0' :: ' ' :: (fmtDec at' ++ ' ' :: ['0'])
      = fmtDec mt ++ ' ' :: (['0'] ++ ' ' :: (fmtDec at' ++ ' ' :: ['0'])) from by simp]
  rw [pySplitSp_cons _ (fmtDec_ne_sp mt) (by simp)]
  rw [pySplitSp_cons _ (by decide) (by simp)]
  rw [show (Option.map Nat.pred (Option.map Nat.pred none)) = none from rfl]
  rw [pySplitSp_cons _ (fmtDec_ne_sp at') (by simp)]
  rw [pySplitSp_single (by decide)]
  simp [pyIntNat_fmtDec]

/-! ## Claim C2 — codec round-trip -/

/-- The domain on which the round-trip property actually holds.  Compared
to the claim's field ranges this adds: the `C` name must be nonempty and
must not end in Python whitespace (the receive-side `C` parser strips the
payload before splitting), and a `T` record must not carry `atime = 0`
unless `mtime` is also `0` (the receive side substitutes `mtime` for a
parsed `atime` of `0`). -/
def validRecord : ControlRecord → Prop
  | .file mode _ name =>
      mode ≤ 0o7777 ∧ '\n' ∉ name ∧ name ≠ [] ∧
        name.getLast?.all (fun c => !pySpace c) = true
  | .push mode name => mode ≤ 0o7777 ∧ '\n' ∉ name
  | .pop => True
  | .time mtime atime => atime ≠ 0 ∨ mtime = 0

instance (r : ControlRecord) : Decidable (validRecord r) := by
  cases r <;> · unfold validRecord; infer_instance

lemma decodeRecord_concat (body : B) (code : Char) :
    decodeRecord ((code :: body) ++ ['\n'])
      = (if code = 'C' then (parseFileLine body).map fun (mo, sz, nm) => .file mo sz nm
        else if code = 'D' then (parsePushLine body).map fun (mo, nm) => .push mo nm
        else if code = 'E' then some .pop
        else if code = 'T' then (parseTimeLine body).map fun (mt, at') => .time mt at'
        else none) := by
  rw [decodeRecord, if_pos (List.getLast?_concat _), List.dropLast_concat]

/-- C2 (amended): encoding any control record whose fields lie in the
stated ranges — with the name for `C` additionally nonempty and not
ending in whitespace, and `atime ≠ 0` for `T` unless `mtime = 0` — and
then decoding the produced line with the receive-side parsers yields the
original record. -/
theorem c2_encode_decode_roundtrip (r : ControlRecord) (hv : validRecord r) :
    decodeRecord (encodeRecord r) = some r := by
  cases r with
  | file m sz name =>
    obtain ⟨hm, hnl, hne, hlast⟩ := hv
    have he : encodeRecord (.file m sz name)
        = ('C' :: (fmtOct4 m ++ ' ' :: (fmtDec sz ++ ' ' :: name))) ++ ['\n'] := by
      simp [encodeRecord, escapeNl_id hnl]
    rw [he, decodeRecord_concat, if_pos rfl]
    rw [parseFileLine_inv m sz name hne (by
      intro c hc
      rw [hc] at hlast
      simpa using hlast)]
    rfl
  | push m name =>
    obtain ⟨hm, hnl⟩ := hv
    have he : encodeRecord (.push m name)
        = ('D' :: (fmtOct4 m ++ ' ' :: '0' :: ' ' :: name)) ++ ['\n'] := by
      simp [encodeRecord, escapeNl_id hnl]
    rw [he, decodeRecord_concat, if_neg (by decide), if_pos rfl]
    rw [parsePushLine_inv m name]
    rfl
  | pop =>
    have he : encodeRecord .pop = ('E' :: ([] : B)) ++ ['\n'] := rfl
    rw [he, decodeRecord_concat]
    decide
  | time mt at' =>
    have he : encodeRecord (.time mt at')
        = ('T' :: (fmtDec mt ++ ' ' :: '0' :: ' ' :: (fmtDec at' ++ ' ' :: ['0']))) ++ ['\n'] := by
      simp [encodeRecord]
    rw [he, decodeRecord_concat, if_neg (by decide), if_neg (by decide),
      if_neg (by decide), if_pos rfl]
    rw [parseTimeLine_inv mt at']
    rcases hv with h | h
    · rw [if_neg h]; rfl
    · subst h
      by_cases h0 : at' = 0
      · subst h0; rfl
      · rw [if_neg h0]; rfl

/-- Witness for C2: the amended round-trip applied to a concrete record. -/
theorem c2_encode_decode_roundtrip_witness :
    validRecord (.file 420 5 ['a']) ∧
      decodeRecord (encodeRecord (.file 420 5 ['a'])) = some (.file 420 5 ['a']) :=
  ⟨by decide, c2_encode_decode_roundtrip (.file 420 5 ['a']) (by decide)⟩

/-- Counterexample for C2 as stated: the record `T` with `mtime = 1`,
`atime = 0` is inside the claim's field ranges (timestamps ≥ 0), but
decoding its encoding yields `atime = 1`, not `0` — `_set_time` computes
`atime = int(times[2]) or mtime`. -/
theorem c2_roundtrip_counterexample :
    decodeRecord (encodeRecord (.time 1 0)) = some (.time 1 1) ∧
      decodeRecord (encodeRecord (.time 1 0)) ≠ some (.time 1 0) := by
  have h : decodeRecord (encodeRecord (.time 1 0)) = some (.time 1 1) := by
    have he : encodeRecord (.time 1 0)
        = ('T' :: (fmtDec 1 ++ ' ' :: '0' :: ' ' :: (fmtDec 0 ++ ' ' :: ['0']))) ++ ['\n'] := by
      simp [encodeRecord]
    rw [he, decodeRecord_concat, if_neg (by decide), if_neg (by decide),
      if_neg (by decide), if_pos rfl, parseTimeLine_inv 1 0]
    rfl
  exact ⟨h, by rw [h]; simp⟩

/-! ## Claim C3 — remote command lines -/

/-- Counterexample for C3 as stated: with `recursive = False` and
`preserve_times = True`, `put` issues `scp -t x` — it never adds `-p`;
the claimed form is `scp -p -t x`. -/
theorem c3_put_command_counterexample :
    putCommandLine false ['x'] = "scp -t x".toList ∧
      claimedPutCommand false true ['x'] = "scp -p -t x".toList ∧
      putCommandLine false ['x'] ≠ claimedPutCommand false true ['x'] := by
  refine ⟨by decide, by decide, by decide⟩

lemma spJoin_eq_joinTokens (ts : List B) : spJoin ts = joinTokens ts := by
  induction ts with
  | nil => rfl
  | cons t ts ih =>
    cases ts with
    | nil => rfl
    | cons u us => rw [spJoin, joinTokens, ih]

lemma joinTokens_cons (t u : B) (us : List B) :
    joinTokens (t :: u :: us) = t ++ ' ' :: joinTokens (u :: us) := by
  rw [joinTokens]

/-- C3 (amended): the `put` command is `scp`, `-r` exactly when recursion
is requested, then `-t` and the sanitized path — `put` never emits `-p`,
timestamp preservation on upload is carried by `T` records instead; the
`getfo` and `putfo` commands are exactly as the claim states them. -/
theorem c3_command_lines (recursive preserve : Bool) (path : B) (paths : List B)
    (hps : paths ≠ []) :
    putCommandLine recursive path
        = joinTokens (["scp".toList]
            ++ (if recursive then ["-r".toList] else []) ++ ["-t".toList, path]) ∧
      getfoCommandLine recursive preserve paths
        = claimedGetfoCommand recursive preserve paths ∧
      putfoCommandLine path
        = joinTokens ["scp".toList, "-v".toList, "-t".toList, path] := by
  obtain ⟨p, ps, rfl⟩ := List.exists_cons_of_ne_nil hps
  refine ⟨?_, ?_, rfl⟩
  · cases recursive <;> rfl
  · unfold getfoCommandLine claimedGetfoCommand
    rw [spJoin_eq_joinTokens]
    cases recursive <;> cases preserve <;>
      simp only [Bool.false_eq_true, if_true, if_false, List.singleton_append,
        List.nil_append, List.cons_append, joinTokens_cons] <;> rfl

/-! ## POSIX path primitives (`os.path` on bytes, `sep = b"/"`)

`_chdir` and the receive-side directory bookkeeping use
`os.path.commonprefix`, `os.path.dirname`, `os.path.split`,
`os.path.basename`, `os.path.flatten` and `bytes.rstrip(sep)`.  These are
modelled below for the POSIX separator `/`. -/

/-- The characters after the last `/` of `p` — `p[i:]` for
`i = p.rfind(b"/") + 1`. -/
def tailAfterSep (p : B) : B := (p.reverse.takeWhile (· ≠ '/')).reverse

/-- `p.rstrip(b"/")`. -/
def rstripSep (p : B) : B := (p.reverse.dropWhile (· = '/')).reverse

/-- The characters of `p` up to and including the last `/` — `p[:i]` for
`i = p.rfind(b"/") + 1`. -/
def headBeforeSep (p : B) : B := p.take (p.length - (tailAfterSep p).length)

/-- `posixpath.split(p)`: cut at the last `/`; the head keeps its
trailing slashes only when it consists of nothing else
(`if head and head != sep*len(head): head = head.rstrip(sep)`). -/
def pySplitPath (p : B) : B × B :=
  (if headBeforeSep p ≠ [] ∧ ¬ (headBeforeSep p).all (· = '/')
    then rstripSep (headBeforeSep p) else headBeforeSep p,
   tailAfterSep p)

/-- `posixpath.dirname(p)`, which computes exactly `split(p)[0]`. -/
def pyDirname (p : B) : B := (pySplitPath p).1

/-- `posixpath.basename(p) = split(p)[1]`. -/
def pyBasename (p : B) : B := (pySplitPath p).2

/-- `os.path.commonprefix([a, b])`: the character-wise longest common
prefix (commonprefix is purely character based, which is why `_chdir`
takes `dirname` of it afterwards). -/
def charLcp : B → B → B
  | a :: as, b :: bs => if a = b then a :: charLcp as bs else []
  | _, _ => []

/-- `posixpath.flatten(a, b)` for a single extra component. -/
def pyJoin (a b : B) : B :=
  if b.head? = some '/' then b
  else if a = [] ∨ a.getLast? = some '/' then a ++ b
  else a ++ '/' :: b

/-! ## `_chdir` — the send-side reconcile step (lines 357–373) -/

/-- A directory-stack wire record: `E` (pop) or `D` (push into a child),
identified by the basename it pushes into.  The mode field of the real
`D` line comes from a filesystem `stat` of the directory (an external
collaborator) and the acknowledgement exchange after each record is the
confirmation protocol; neither affects which records are emitted, which
is what claims C5 and C6 are about. -/
inductive DirRec where
  | popd
  | pushd (name : B)
deriving DecidableEq

/-- The `while cur_dir != common` loop of `_chdir` (lines 369–371): split
off the last path component and emit one `E` record per iteration.  The
fuel bounds the iterations; the Python loop can diverge off the walk
domain, which the model reports as `none`. -/
def chdirPops (common : B) : B → Nat → Option (List DirRec)
  | cur, 0 => if cur = common then some [] else none
  | cur, fuel + 1 =>
    if cur = common then some []
    else (chdirPops common (pyDirname cur) fuel).map (DirRec.popd :: ·)

/-- `_chdir(from_dir, to_dir)`: compute the common base via the
character-wise `commonprefix` of both paths with a trailing separator
appended, take its `dirname`, pop up from `from_dir.rstrip(sep)` to it,
then push once into `to_dir` (whose basename is newline-escaped by
`_send_pushd`). -/
def chdirRecs (fromDir toDir : B) : Option (List DirRec) :=
  (chdirPops (pyDirname (charLcp (fromDir ++ ['/']) (toDir ++ ['/'])))
      (rstripSep fromDir) (fromDir.length + 1)).map
    (· ++ [DirRec.pushd (escapeNl (pyBasename toDir))])

/-! ## Path segments -/

/-- A path segment as produced by a filesystem walk: nonempty and free of
the separator. -/
def validSeg (s : B) : Prop := s ≠ [] ∧ '/' ∉ s

instance (s : B) : Decidable (validSeg s) := by unfold validSeg; infer_instance

/-- Join segments with `/`. -/
def joinSegs : List B → B
  | [] => []
  | [s] => s
  | s :: t :: ts => s ++ '/' :: joinSegs (t :: ts)

/-- Segment-wise longest common prefix — the "deepest common ancestor" in
the sense of claim C5. -/
def segLcp : List B → List B → List B
  | a :: as, b :: bs => if a = b then a :: segLcp as bs else []
  | _, _ => []

/-! ## Lemmas about segments and the path primitives -/

lemma joinSegs_cons_cons (s t : B) (ts : List B) :
    joinSegs (s :: t :: ts) = s ++ '/' :: joinSegs (t :: ts) := by
  rw [joinSegs]

lemma joinSegs_append {A C : List B} (hA : A ≠ []) (hC : C ≠ []) :
    joinSegs (A ++ C) = joinSegs A ++ '/' :: joinSegs C := by
  induction A with
  | nil => exact absurd rfl hA
  | cons a A ih =>
    cases A with
    | nil =>
      obtain ⟨c, cs, rfl⟩ := List.exists_cons_of_ne_nil hC
      simp [joinSegs_cons_cons, joinSegs]
    | cons b bs =>
      rw [List.cons_append, List.cons_append, joinSegs_cons_cons,
        ← List.cons_append, ih (by simp), joinSegs_cons_cons]
      simp

lemma joinSegs_concat {A : List B} (s : B) (hA : A ≠ []) :
    joinSegs (A ++ [s]) = joinSegs A ++ '/' :: s := by
  rw [joinSegs_append hA (by simp)]
  rfl

lemma joinSegs_ne_nil {L : List B} (hv : ∀ s ∈ L, validSeg s) (hL : L ≠ []) :
    joinSegs L ≠ [] := by
  obtain ⟨a, A, rfl⟩ := List.exists_cons_of_ne_nil hL
  have ha : a ≠ [] := (hv a (by simp)).1
  cases A with
  | nil => exact ha
  | cons b bs => rw [joinSegs_cons_cons]; simp [ha]

lemma getLast?_append_cons (X : B) (c : Char) (t : B) :
    (X ++ c :: t).getLast? = (c :: t).getLast? := by
  rw [List.getLast?_append_of_ne_nil _ (by simp)]

lemma getLast?_joinSegs_concat (A : List B) {t : B} (ht : t ≠ []) :
    (joinSegs (A ++ [t])).getLast? = t.getLast? := by
  cases A with
  | nil => rfl
  | cons a A =>
    rw [joinSegs_concat t (by simp), getLast?_append_cons]
    obtain ⟨c, cs, rfl⟩ := List.exists_cons_of_ne_nil ht
    rw [List.getLast?_cons_cons]

lemma joinSegs_getLast_not_slash {L : List B} (hv : ∀ s ∈ L, validSeg s) :
    ∀ c, (joinSegs L).getLast? = some c → c ≠ '/' := by
  intro c hc
  rcases List.eq_nil_or_concat L with rfl | ⟨A, t, rfl⟩
  · simp [joinSegs] at hc
  · rw [List.concat_eq_append] at hv hc
    have ht : validSeg t := hv t (by simp)
    rw [getLast?_joinSegs_concat A ht.1] at hc
    intro hcs
    exact ht.2 (hcs ▸ List.mem_of_mem_getLast? hc)

lemma joinSegs_has_non_slash {L : List B} (hv : ∀ s ∈ L, validSeg s) (hL : L ≠ []) :
    ∃ c ∈ joinSegs L, c ≠ '/' := by
  obtain ⟨a, A, rfl⟩ := List.exists_cons_of_ne_nil hL
  have ha := hv a (by simp)
  obtain ⟨c, cs, rfl⟩ := List.exists_cons_of_ne_nil ha.1
  refine ⟨c, ?_, fun hc => ha.2 (hc ▸ List.mem_cons_self c cs)⟩
  cases A with
  | nil => exact List.mem_cons_self c cs
  | cons b bs =>
    rw [joinSegs_cons_cons]
    exact List.mem_append_left _ (List.mem_cons_self c cs)

lemma length_le_joinSegs {L : List B} (hv : ∀ s ∈ L, validSeg s) :
    L.length ≤ (joinSegs L).length + 1 := by
  induction L with
  | nil => simp
  | cons a A ih =>
    cases A with
    | nil => simp
    | cons b bs =>
      have hih := ih (fun s hs => hv s (List.mem_cons_of_mem a hs))
      rw [joinSegs_cons_cons]
      simp only [List.length_cons, List.length_append] at hih ⊢
      omega

lemma dropWhile_eq_self_of_head {p : Char → Bool} {l : B}
    (h : ∀ c, l.head? = some c → p c = false) : l.dropWhile p = l := by
  cases l with
  | nil => rfl
  | cons c cs => rw [List.dropWhile_cons, h c rfl]; simp

lemma rstripSep_id {p : B} (h : ∀ c, p.getLast? = some c → c ≠ '/') :
    rstripSep p = p := by
  unfold rstripSep
  rw [dropWhile_eq_self_of_head, List.reverse_reverse]
  intro c hc
  rw [List.head?_reverse] at hc
  simpa using h c hc

lemma tailAfterSep_no_slash {w : B} (hw : '/' ∉ w) : tailAfterSep w = w := by
  unfold tailAfterSep
  rw [List.takeWhile_eq_self_iff.mpr, List.reverse_reverse]
  intro x hx
  have : x ≠ '/' := fun hxe => hw (hxe ▸ List.mem_reverse.mp hx)
  simp [this]

lemma tailAfterSep_append_slash {X w : B} (hw : '/' ∉ w) :
    tailAfterSep (X ++ '/' :: w) = w := by
  unfold tailAfterSep
  rw [show (X ++ '/' :: w).reverse = w.reverse ++ '/' :: X.reverse from by simp]
  have hmid : (w.reverse ++ '/' :: X.reverse).takeWhile (· ≠ '/') = w.reverse := by
    apply takeWhile_middle
    · intro c hc
      have : c ≠ '/' := fun hce => hw (hce ▸ List.mem_reverse.mp hc)
      simp [this]
    · simp
  rw [hmid, List.reverse_reverse]

/-- `dirname` of a string without separators is empty. -/
lemma pyDirname_no_slash {w : B} (hw : '/' ∉ w) : pyDirname w = [] := by
  have hh : headBeforeSep w = [] := by
    unfold headBeforeSep
    rw [tailAfterSep_no_slash hw]
    simp
  unfold pyDirname pySplitPath
  simp [hh]

/-- `dirname (X ++ '/' :: w) = X` when `w` carries no separator and `X`
is a nonempty path not ending in a separator and not made of separators
only. -/
lemma rstripSep_concat_slash {X : B} (hlast : ∀ c, X.getLast? = some c → c ≠ '/') :
    rstripSep (X ++ ['/']) = X := by
  unfold rstripSep
  rw [List.reverse_append, show (['/'] : B).reverse = ['/'] from rfl,
    List.singleton_append, List.dropWhile_cons]
  rw [if_pos (by simp)]
  rw [dropWhile_eq_self_of_head (fun c hc => ?_), List.reverse_reverse]
  rw [List.head?_reverse] at hc
  simpa using hlast c hc

lemma pyDirname_append_slash {X w : B} (hw : '/' ∉ w)
    (hmix : ∃ c ∈ X, c ≠ '/') (hlast : ∀ c, X.getLast? = some c → c ≠ '/') :
    pyDirname (X ++ '/' :: w) = X := by
  have hcond : ¬ ((X ++ ['/']).all (· = '/') = true) := by
    obtain ⟨c, hcm, hcne⟩ := hmix
    intro hall
    exact hcne (by simpa using List.all_eq_true.mp hall c (List.mem_append_left _ hcm))
  have hhead : headBeforeSep (X ++ '/' :: w) = X ++ ['/'] := by
    unfold headBeforeSep
    rw [tailAfterSep_append_slash hw]
    rw [show (X ++ '/' :: w).length - w.length = (X ++ ['/']).length from by
      simp only [List.length_append, List.length_cons, List.length_nil]; omega]
    rw [show X ++ '/' :: w = (X ++ ['/']) ++ w from by simp, List.take_left]
  unfold pyDirname pySplitPath
  rw [hhead]
  rw [if_pos ⟨by simp, hcond⟩, rstripSep_concat_slash hlast]

lemma charLcp_refl (l : B) : charLcp l l = l := by
  induction l with
  | nil => rfl
  | cons c cs ih => rw [charLcp, if_pos rfl, ih]

lemma charLcp_append (p a b : B) :
    charLcp (p ++ a) (p ++ b) = p ++ charLcp a b := by
  induction p with
  | nil => rfl
  | cons c cs ih => rw [List.cons_append, List.cons_append, charLcp, if_pos rfl, ih]; rfl

/-- The character-wise common prefix of `u ++ '/' :: a` and
`v ++ '/' :: b` for distinct separator-free `u ≠ v` never reaches a
separator. -/
lemma charLcp_seg_no_slash {u v : B} (a b : B) (hu : '/' ∉ u) (hv : '/' ∉ v)
    (huv : u ≠ v) : '/' ∉ charLcp (u ++ '/' :: a) (v ++ '/' :: b) := by
  induction u generalizing v with
  | nil =>
    obtain ⟨d, ds, rfl⟩ : ∃ d ds, v = d :: ds := by
      cases v with
      | nil => exact absurd rfl huv
      | cons d ds => exact ⟨d, ds, rfl⟩
    have hd : d ≠ '/' := fun h => hv (h ▸ List.mem_cons_self d ds)
    rw [List.nil_append, List.cons_append, charLcp, if_neg (fun h => hd h.symm)]
    simp
  | cons c cs ih =>
    cases v with
    | nil =>
      have hc : c ≠ '/' := fun h => hu (h ▸ List.mem_cons_self c cs)
      rw [List.cons_append, List.nil_append, charLcp, if_neg hc]
      simp
    | cons d ds =>
      rw [List.cons_append, List.cons_append, charLcp]
      by_cases hcd : c = d
      · subst hcd
        rw [if_pos rfl]
        have hc : c ≠ '/' := fun h => hu (h ▸ List.mem_cons_self c cs)
        intro hmem
        rcases List.mem_cons.mp hmem with h | h
        · exact hc h.symm
        · exact ih (fun hm => hu (List.mem_cons_of_mem c hm))
            (fun hm => hv (List.mem_cons_of_mem c hm))
            (fun he => huv (by rw [he])) h
      · rw [if_neg hcd]; simp

/-! ## `_chdir` on a segment walk -/

/-- Peeling one segment: `os.path.split(joinSegs (A ++ [s]))[0]` is
`joinSegs A`. -/
lemma pyDirname_joinSegs_concat {A : List B} {s : B}
    (hA : ∀ t ∈ A, validSeg t) (hs : validSeg s) :
    pyDirname (joinSegs (A ++ [s])) = joinSegs A := by
  rcases eq_or_ne A [] with rfl | hAne
  · rw [List.nil_append]
    exact pyDirname_no_slash hs.2
  · rw [joinSegs_concat s hAne]
    exact pyDirname_append_slash hs.2 (joinSegs_has_non_slash hA hAne)
      (joinSegs_getLast_not_slash hA)

lemma pyBasename_joinSegs_concat {A : List B} {s : B} (hs : validSeg s) :
    pyBasename (joinSegs (A ++ [s])) = s := by
  rcases eq_or_ne A [] with rfl | hAne
  · rw [List.nil_append]
    show (pySplitPath (joinSegs [s])).2 = s
    unfold pySplitPath
    exact tailAfterSep_no_slash hs.2
  · rw [joinSegs_concat s hAne]
    show (pySplitPath (joinSegs A ++ '/' :: s)).2 = s
    unfold pySplitPath
    exact tailAfterSep_append_slash hs.2

lemma joinSegs_length_lt {A C : List B} (hvC : ∀ s ∈ C, validSeg s) (hC : C ≠ []) :
    (joinSegs A).length < (joinSegs (A ++ C)).length := by
  rcases eq_or_ne A [] with rfl | hAne
  · rw [List.nil_append]
    show 0 < (joinSegs C).length
    have := joinSegs_ne_nil hvC hC
    cases h : joinSegs C with
    | nil => exact absurd h this
    | cons c cs => simp
  · rw [joinSegs_append hAne hC]
    simp

/-- The pop loop of `_chdir`, run from `joinSegs (anc ++ rest)` down to
the common base `joinSegs anc`, emits exactly `rest.length` pops. -/
lemma chdirPops_joinSegs (anc : List B) (hA : ∀ s ∈ anc, validSeg s) :
    ∀ (rest : List B) (fuel : Nat), (∀ s ∈ rest, validSeg s) →
      rest.length ≤ fuel →
      chdirPops (joinSegs anc) (joinSegs (anc ++ rest)) fuel
        = some (List.replicate rest.length DirRec.popd) := by
  intro rest
  induction rest using List.reverseRecOn with
  | nil =>
    intro fuel _ _
    cases fuel <;> simp [chdirPops]
  | append_singleton R s ih =>
    intro fuel hv hfuel
    have hvR : ∀ t ∈ R, validSeg t := fun t ht => hv t (List.mem_append_left _ ht)
    have hvs : validSeg s := hv s (by simp)
    cases fuel with
    | zero => simp at hfuel
    | succ f =>
      have hne : joinSegs (anc ++ (R ++ [s])) ≠ joinSegs anc := by
        intro h
        have hlt := joinSegs_length_lt (A := anc) (C := R ++ [s]) hv (by simp)
        rw [h] at hlt
        omega
      rw [chdirPops, if_neg hne]
      rw [show anc ++ (R ++ [s]) = (anc ++ R) ++ [s] from by simp]
      rw [pyDirname_joinSegs_concat (fun t ht => by
        rcases List.mem_append.mp ht with h | h
        exacts [hA t h, hvR t h]) hvs]
      have hRf : R.length ≤ f := by
        simp only [List.length_append, List.length_singleton] at hfuel
        omega
      rw [ih f hvR hRf]
      simp [List.replicate_succ]

/-- Shape of a joined nonempty segment list followed by a separator. -/
lemma joinSegs_cons_append_slash (r : B) (r' : List B) :
    ∃ w, joinSegs (r :: r') ++ ['/'] = r ++ '/' :: w := by
  cases r' with
  | nil => exact ⟨[], by simp [joinSegs]⟩
  | cons t ts => exact ⟨joinSegs (t :: ts) ++ ['/'], by rw [joinSegs_cons_cons]; simp⟩

/-- The common base computed by `_chdir` — `dirname` of the character
common prefix of the two paths with trailing separators — is exactly the
join of the segment-wise common ancestor `anc`, provided the next
directory `anc ++ [x]` is not a prefix of the previous one. -/
lemma chdir_common_joinSegs (anc rest : List B) (x : B)
    (hA : ∀ s ∈ anc, validSeg s) (hR : ∀ s ∈ rest, validSeg s) (hx : validSeg x)
    (hhead : rest.head? ≠ some x) :
    pyDirname (charLcp (joinSegs (anc ++ rest) ++ ['/']) (joinSegs (anc ++ [x]) ++ ['/']))
      = joinSegs anc := by
  cases rest with
  | nil =>
    rcases eq_or_ne anc [] with rfl | hAne
    · obtain ⟨c, cs, rfl⟩ := List.exists_cons_of_ne_nil hx.1
      have hc : ¬ ('/' = c) := fun h => hx.2 (h.symm ▸ List.mem_cons_self c cs)
      show pyDirname (charLcp (joinSegs [] ++ ['/']) (joinSegs [c :: cs] ++ ['/'])) = joinSegs []
      rw [show joinSegs ([] : List B) = [] from rfl, show joinSegs [c :: cs] = c :: cs from rfl,
        List.nil_append, List.cons_append, charLcp, if_neg hc]
      exact pyDirname_no_slash (by simp)
    · rw [List.append_nil, joinSegs_concat x hAne]
      rw [show joinSegs anc ++ ['/'] = joinSegs anc ++ '/' :: ([] : B) from rfl]
      rw [show (joinSegs anc ++ '/' :: x) ++ ['/'] = joinSegs anc ++ '/' :: (x ++ ['/']) from by simp]
      rw [show joinSegs anc ++ '/' :: ([] : B) = (joinSegs anc ++ ['/']) ++ [] from by simp]
      rw [show joinSegs anc ++ '/' :: (x ++ ['/']) = (joinSegs anc ++ ['/']) ++ (x ++ ['/']) from by simp]
      rw [charLcp_append]
      rw [show charLcp [] (x ++ ['/']) = [] from rfl]
      rw [List.append_nil]
      rw [show joinSegs anc ++ ['/'] = joinSegs anc ++ '/' :: ([] : B) from rfl]
      exact pyDirname_append_slash (by simp) (joinSegs_has_non_slash hA hAne)
        (joinSegs_getLast_not_slash hA)
  | cons r r' =>
    have hr : validSeg r := hR r (by simp)
    have hrx : r ≠ x := fun h => hhead (by simp [h])
    obtain ⟨w, hw⟩ := joinSegs_cons_append_slash r r'
    have hwslash : '/' ∉ charLcp (r ++ '/' :: w) (x ++ '/' :: ([] : B)) :=
      charLcp_seg_no_slash w [] hr.2 hx.2 hrx
    rcases eq_or_ne anc [] with rfl | hAne
    · show pyDirname (charLcp (joinSegs (r :: r') ++ ['/']) (joinSegs [x] ++ ['/'])) = joinSegs []
      rw [hw, show joinSegs [x] = x from rfl,
        show x ++ ['/'] = x ++ '/' :: ([] : B) from rfl]
      exact pyDirname_no_slash hwslash
    · have h1 : joinSegs (anc ++ r :: r') ++ ['/']
          = (joinSegs anc ++ ['/']) ++ (joinSegs (r :: r') ++ ['/']) := by
        rw [joinSegs_append hAne (by simp)]
        simp
      have h2 : joinSegs (anc ++ [x]) ++ ['/']
          = (joinSegs anc ++ ['/']) ++ (x ++ ['/']) := by
        rw [joinSegs_concat x hAne]
        simp
      rw [h1, h2, charLcp_append, hw, show x ++ ['/'] = x ++ '/' :: ([] : B) from rfl]
      have hws : '/' ∉ charLcp (r ++ '/' :: w) (x ++ '/' :: ([] : B)) :=
        charLcp_seg_no_slash w [] hr.2 hx.2 hrx
      rw [show (joinSegs anc ++ ['/']) ++ charLcp (r ++ '/' :: w) (x ++ '/' :: ([] : B))
          = joinSegs anc ++ '/' :: charLcp (r ++ '/' :: w) (x ++ '/' :: ([] : B)) from by simp]
      exact pyDirname_append_slash hws (joinSegs_has_non_slash hA hAne)
        (joinSegs_getLast_not_slash hA)

/-- `_chdir` at a proper walk boundary: from `anc ++ rest` into
`anc ++ [x]` it emits `rest.length` pops followed by one push of the
(escaped) basename `x`. -/
lemma chdirRecs_form (anc rest : List B) (x : B)
    (hA : ∀ s ∈ anc, validSeg s) (hR : ∀ s ∈ rest, validSeg s) (hx : validSeg x)
    (hhead : rest.head? ≠ some x) :
    chdirRecs (joinSegs (anc ++ rest)) (joinSegs (anc ++ [x]))
      = some (List.replicate rest.length DirRec.popd ++ [DirRec.pushd (escapeNl x)]) := by
  have hvAR : ∀ s ∈ anc ++ rest, validSeg s := fun s hs => by
    rcases List.mem_append.mp hs with h | h
    exacts [hA s h, hR s h]
  unfold chdirRecs
  rw [chdir_common_joinSegs anc rest x hA hR hx hhead]
  rw [rstripSep_id (joinSegs_getLast_not_slash hvAR)]
  have hfuel : rest.length ≤ (joinSegs (anc ++ rest)).length + 1 := by
    have h1 := length_le_joinSegs hvAR
    have h2 : rest.length ≤ (anc ++ rest).length := by simp
    omega
  rw [chdirPops_joinSegs anc hA rest _ hR hfuel]
  rw [pyBasename_joinSegs_concat hx]
  rfl

/-- `_chdir(d, d)` — the very first walk step, where `last_dir` still
equals the base — emits no pop and one push. -/
lemma chdirRecs_self (L : List B) (hv : ∀ s ∈ L, validSeg s) (hL : L ≠ []) :
    ∃ nm, chdirRecs (joinSegs L) (joinSegs L) = some [DirRec.pushd nm] := by
  refine ⟨escapeNl (pyBasename (joinSegs L)), ?_⟩
  unfold chdirRecs
  rw [charLcp_refl]
  rw [show joinSegs L ++ ['/'] = joinSegs L ++ '/' :: ([] : B) from rfl]
  rw [pyDirname_append_slash (by simp) (joinSegs_has_non_slash hv hL)
    (joinSegs_getLast_not_slash hv)]
  rw [rstripSep_id (joinSegs_getLast_not_slash hv)]
  rw [show chdirPops (joinSegs L) (joinSegs L) ((joinSegs L).length + 1) = some [] from by
    rw [chdirPops, if_pos rfl]]
  rfl

lemma segLcp_append (p a b : List B) : segLcp (p ++ a) (p ++ b) = p ++ segLcp a b := by
  induction p with
  | nil => rfl
  | cons s ss ih => rw [List.cons_append, List.cons_append, segLcp, if_pos rfl, ih]; rfl

lemma segLcp_anc (anc rest : List B) (x : B) (hhead : rest.head? ≠ some x) :
    segLcp (anc ++ rest) (anc ++ [x]) = anc := by
  rw [segLcp_append]
  cases rest with
  | nil => simp [segLcp]
  | cons r r' =>
    have hrx : ¬ (r = x) := fun h => hhead (by simp [h])
    rw [segLcp, if_neg hrx]
    simp

/-- C5: at every proper directory boundary of a depth-first walk — the
previous directory is `anc ++ rest`, the next one is `anc ++ [x]`, and
the next one is not a prefix of the previous one (`rest` does not start
with `x`) — `_chdir` emits exactly `rest.length` `DirectoryPop` records
followed by exactly one `DirectoryPush` of the next path's basename `x`;
`rest.length` is precisely the number of segments from the previous path
down to the deepest common ancestor `anc` (the segment-wise common
prefix), so no push is ever emitted for a directory already represented
by the stack position reached after the pops. -/
theorem c5_chdir_reconcile (anc rest : List B) (x : B)
    (hA : ∀ s ∈ anc, validSeg s) (hR : ∀ s ∈ rest, validSeg s) (hx : validSeg x)
    (hnl : '\n' ∉ x) (hhead : rest.head? ≠ some x) :
    chdirRecs (joinSegs (anc ++ rest)) (joinSegs (anc ++ [x]))
        = some (List.replicate rest.length DirRec.popd ++ [DirRec.pushd x])
      ∧ segLcp (anc ++ rest) (anc ++ [x]) = anc
      ∧ rest.length
          = (anc ++ rest).length - (segLcp (anc ++ rest) (anc ++ [x])).length := by
  refine ⟨?_, segLcp_anc anc rest x hhead, ?_⟩
  · rw [chdirRecs_form anc rest x hA hR hx hhead, escapeNl_id hnl]
  · rw [segLcp_anc anc rest x hhead]
    simp

/-- Witness for C5 at a concrete boundary: previous `a/b/c`, next `a/d`. -/
theorem c5_chdir_reconcile_witness :
    ((∀ s ∈ [['a']], validSeg s) ∧ (∀ s ∈ [['b'], ['c']], validSeg s) ∧ validSeg ['d']
        ∧ '\n' ∉ ['d'] ∧ ([['b'], ['c']] : List B).head? ≠ some ['d'])
      ∧ (chdirRecs (joinSegs ([['a']] ++ [['b'], ['c']])) (joinSegs ([['a']] ++ [['d']]))
            = some (List.replicate ([['b'], ['c']] : List B).length DirRec.popd
                ++ [DirRec.pushd ['d']])
          ∧ segLcp ([['a']] ++ [['b'], ['c']]) ([['a']] ++ [['d']]) = [['a']]
          ∧ ([['b'], ['c']] : List B).length
              = (([['a']] ++ [['b'], ['c']] : List B)).length
                  - (segLcp ([['a']] ++ [['b'], ['c']]) ([['a']] ++ [['d']])).length) :=
  ⟨⟨by decide, by decide, by decide, by decide, by decide⟩,
    c5_chdir_reconcile [['a']] [['b'], ['c']] ['d']
      (by decide) (by decide) (by decide) (by decide) (by decide)⟩

/-! ## `_send_recursive` — claim C6 -/

/-- Number of `D` (push) records in a record sequence. -/
def countPushd (rs : List DirRec) : Nat :=
  rs.countP fun r => match r with | .pushd _ => true | .popd => false

/-- Number of `E` (pop) records in a record sequence. -/
def countPopd (rs : List DirRec) : Nat :=
  rs.countP fun r => match r with | .popd => true | .pushd _ => false

/-- The walk loop of `_send_recursive` (lines 382–387) for one directory
base: for each root yielded by `os.walk`, call `_chdir` from the previous
root unless the root ends in a separator, then remember the root as the
new `last_dir`.  The `_pushed` counter moves with the emitted records —
`_send_pushd` increments it once per `D` record and `_send_popd`
decrements it once per `E` record.  The per-directory `_send_files` calls
emit only `C`/`T` records and are not part of the directory-record
stream. -/
def walkSteps : B → Int → List B → Option (List DirRec × Int × B)
  | last, pushed, [] => some ([], pushed, last)
  | last, pushed, r :: rs =>
    (if r.getLast? = some '/' then some [] else chdirRecs last r).bind fun recs =>
      (walkSteps r (pushed + (countPushd recs : Int) - (countPopd recs : Int)) rs).bind
        fun res => some (recs ++ res.1, res.2.1, res.2.2)

/-- `_send_recursive` for one directory base (lines 382–390): run the
walk from `last_dir = base` with `_pushed = 0`, then
`while self._pushed > 0: self._send_popd()`. -/
def sendRecursiveRoot (base : B) (roots : List B) : Option (List DirRec × Int) :=
  (walkSteps base 0 roots).bind fun res =>
    some (res.1 ++ List.replicate res.2.1.toNat DirRec.popd,
      res.2.1 - (res.2.1.toNat : Int))

/-- The depth-first pre-order walk discipline of `os.walk`, in segment
space: each next root is its parent with one new segment appended, the
parent is a prefix of the previously yielded root, the next root is not
itself a prefix of the previous one (directories are never re-entered),
and every root stays inside the walk base. -/
def chainOk (bsegs : List B) : List B → List (List B) → Prop
  | _, [] => True
  | prev, r :: rs =>
      r ≠ [] ∧ (∀ s ∈ r, validSeg s) ∧ (r.dropLast <+: prev) ∧ ¬ (r <+: prev)
        ∧ (bsegs <+: r) ∧ chainOk bsegs r rs

instance chainOkDecidable (b : List B) (p : List B)
    (rs : List (List B)) : Decidable (chainOk b p rs) := by
  induction rs generalizing p with
  | nil => exact isTrue (by rw [chainOk]; trivial)
  | cons r rs ih =>
    rw [chainOk]
    have := ih r
    infer_instance

lemma countPushd_append (a b : List DirRec) :
    countPushd (a ++ b) = countPushd a + countPushd b := List.countP_append _ _ _

lemma countPopd_append (a b : List DirRec) :
    countPopd (a ++ b) = countPopd a + countPopd b := List.countP_append _ _ _

lemma countPushd_replicate_popd (k : Nat) :
    countPushd (List.replicate k DirRec.popd) = 0 := by
  induction k with
  | zero => rfl
  | succ k ih => simp only [List.replicate_succ, countPushd, List.countP_cons] at ih ⊢; simp [ih]

lemma countPopd_replicate_popd (k : Nat) :
    countPopd (List.replicate k DirRec.popd) = k := by
  induction k with
  | zero => rfl
  | succ k ih => simp only [List.replicate_succ, countPopd, List.countP_cons] at ih ⊢; simp [ih]

lemma countPushd_chdir (k : Nat) (nm : B) :
    countPushd (List.replicate k DirRec.popd ++ [DirRec.pushd nm]) = 1 := by
  rw [countPushd_append, countPushd_replicate_popd]
  rfl

lemma countPopd_chdir (k : Nat) (nm : B) :
    countPopd (List.replicate k DirRec.popd ++ [DirRec.pushd nm]) = k := by
  rw [countPopd_append, countPopd_replicate_popd]
  rfl

/-- Invariant of the walk loop: starting from a previously-visited root
`prev` with `_pushed = prev.length - base.length + 1`, a chain-valid walk
suffix runs to completion, ends on its last root with the same shape of
push counter, and the difference between emitted pushes and pops equals
the change in depth. -/
lemma walkSteps_inv (bsegs : List B) :
    ∀ (roots : List (List B)) (prev : List B),
      (∀ s ∈ prev, validSeg s) → prev ≠ [] → (bsegs <+: prev) →
      chainOk bsegs prev roots →
      ∃ recs last',
        walkSteps (joinSegs prev) ((prev.length : Int) - bsegs.length + 1)
            (roots.map joinSegs)
          = some (recs, ((last'.length : Int) - bsegs.length + 1), joinSegs last')
        ∧ (countPushd recs : Int) - countPopd recs
            = (last'.length : Int) - prev.length
        ∧ (bsegs <+: last') := by
  intro roots
  induction roots with
  | nil =>
    intro prev hv hne hbp _
    refine ⟨[], prev, ?_, ?_, hbp⟩
    · rw [List.map_nil, walkSteps]
    · norm_num [countPushd, countPopd]
  | cons r rs ih =>
    intro prev hv hne hbp hchain
    rw [chainOk] at hchain
    obtain ⟨hrne, hrv, hanc, hnpfx, hbr, hchain'⟩ := hchain
    rcases List.eq_nil_or_concat r with rfl | ⟨anc, x, rfl⟩
    · exact absurd rfl hrne
    rw [List.concat_eq_append] at *
    rw [List.dropLast_concat] at hanc
    obtain ⟨rest, hrest⟩ := hanc
    have hvanc : ∀ s ∈ anc, validSeg s := fun s hs =>
      hv s (hrest ▸ List.mem_append_left _ hs)
    have hvrest : ∀ s ∈ rest, validSeg s := fun s hs =>
      hv s (hrest ▸ List.mem_append_right _ hs)
    have hvx : validSeg x := hrv x (by simp)
    have hhead : rest.head? ≠ some x := by
      intro hh
      obtain ⟨rest', rfl⟩ : ∃ rest', rest = x :: rest' := by
        cases rest with
        | nil => simp at hh
        | cons a as => exact ⟨as, by simpa using hh⟩
      exact hnpfx ⟨rest', by rw [← hrest]; simp⟩
    have hchdir := chdirRecs_form anc rest x hvanc hvrest hvx hhead
    rw [hrest] at hchdir
    have hguard : ¬ ((joinSegs (anc ++ [x])).getLast? = some '/') := fun h =>
      joinSegs_getLast_not_slash hrv '/' h rfl
    have hlen_prev : prev.length = anc.length + rest.length := by
      rw [← hrest]; simp
    obtain ⟨recs', last', hws, hcnt, hbl⟩ := ih (anc ++ [x]) hrv (by simp) hbr hchain'
    refine ⟨(List.replicate rest.length DirRec.popd ++ [DirRec.pushd (escapeNl x)]) ++ recs',
      last', ?_, ?_, hbl⟩
    · rw [List.map_cons, walkSteps, if_neg hguard, hchdir]
      simp only [Option.some_bind]
      have harith : ((prev.length : Int) - bsegs.length + 1)
            + ((countPushd (List.replicate rest.length DirRec.popd
                ++ [DirRec.pushd (escapeNl x)]) : Nat) : Int)
            - ((countPopd (List.replicate rest.length DirRec.popd
                ++ [DirRec.pushd (escapeNl x)]) : Nat) : Int)
          = (((anc ++ [x]).length : Int) - bsegs.length + 1) := by
        rw [countPushd_chdir, countPopd_chdir]
        simp only [List.length_append, List.length_singleton]
        omega
      rw [harith, hws]
      simp only [Option.some_bind]
    · rw [countPushd_append, countPopd_append, countPushd_chdir, countPopd_chdir]
      have hlr : (anc ++ [x]).length = anc.length + 1 := by simp
      rw [hlr] at hcnt
      push_cast
      push_cast at hcnt
      omega

/-- C6: for a recursive upload of one directory root whose depth-first
walk obeys the `os.walk` discipline (`chainOk`), `_send_recursive` runs
to completion, the final value of the `_pushed` counter is `0`, and the
total number of `DirectoryPush` records emitted equals the total number
of `DirectoryPop` records emitted once the trailing
`while self._pushed > 0` drain has run. -/
theorem c6_send_recursive_balanced (bsegs : List B) (rtail : List (List B))
    (hbv : ∀ s ∈ bsegs, validSeg s) (hbne : bsegs ≠ [])
    (hchain : chainOk bsegs bsegs rtail) :
    ∃ recs, sendRecursiveRoot (joinSegs bsegs) ((bsegs :: rtail).map joinSegs)
        = some (recs, 0)
      ∧ countPushd recs = countPopd recs := by
  obtain ⟨nm, hself⟩ := chdirRecs_self bsegs hbv hbne
  have hguard : ¬ ((joinSegs bsegs).getLast? = some '/') := fun h =>
    joinSegs_getLast_not_slash hbv '/' h rfl
  obtain ⟨recs', last', hws, hcnt, hbl⟩ :=
    walkSteps_inv bsegs rtail bsegs hbv hbne ⟨[], List.append_nil _⟩ hchain
  have hcp1 : countPushd [DirRec.pushd nm] = 1 := rfl
  have hcq1 : countPopd [DirRec.pushd nm] = 0 := rfl
  have hblen : bsegs.length ≤ last'.length := by
    obtain ⟨t, ht⟩ := hbl
    rw [← ht]
    simp
  have hpos : (0 : Int) ≤ (last'.length : Int) - bsegs.length + 1 := by omega
  refine ⟨[DirRec.pushd nm] ++ recs'
      ++ List.replicate ((last'.length : Int) - bsegs.length + 1).toNat DirRec.popd, ?_, ?_⟩
  · unfold sendRecursiveRoot
    rw [List.map_cons, walkSteps, if_neg hguard, hself]
    simp only [Option.some_bind]
    have harith : (0 : Int) + ((countPushd [DirRec.pushd nm] : Nat) : Int)
          - ((countPopd [DirRec.pushd nm] : Nat) : Int)
        = ((bsegs.length : Int) - bsegs.length + 1) := by
      rw [hcp1, hcq1]
      omega
    rw [harith, hws]
    simp only [Option.some_bind]
    have hz : ((last'.length : Int) - bsegs.length + 1)
        - ((((last'.length : Int) - bsegs.length + 1).toNat : Nat) : Int) = 0 := by
      rw [Int.toNat_of_nonneg hpos]
      omega
    rw [hz]
  · rw [countPushd_append, countPushd_append, countPopd_append, countPopd_append,
      hcp1, hcq1, countPushd_replicate_popd, countPopd_replicate_popd]
    have htn : (((last'.length : Int) - bsegs.length + 1).toNat : Int)
        = (last'.length : Int) - bsegs.length + 1 := Int.toNat_of_nonneg hpos
    omega

/-- Witness for C6: base `a`, walk `a` then `a/b`. -/
theorem c6_send_recursive_balanced_witness :
    ((∀ s ∈ [['a']], validSeg s) ∧ ([['a']] : List B) ≠ []
        ∧ chainOk [['a']] [['a']] [[['a'], ['b']]])
      ∧ ∃ recs,
          sendRecursiveRoot (joinSegs [['a']]) (([['a']] :: [[['a'], ['b']]]).map joinSegs)
              = some (recs, 0)
            ∧ countPushd recs = countPopd recs :=
  ⟨⟨by decide, by decide, by decide⟩,
    c6_send_recursive_balanced [['a']] [[['a'], ['b']]] (by decide) (by decide) (by decide)⟩

/-- Witness for C3 at concrete flags and paths. -/
theorem c3_command_lines_witness :
    ((["p1".toList] : List B) ≠ [])
      ∧ (putCommandLine true ['x']
            = joinTokens (["scp".toList]
                ++ (if true then ["-r".toList] else []) ++ ["-t".toList, ['x']])
          ∧ getfoCommandLine true true ["p1".toList]
              = claimedGetfoCommand true true ["p1".toList]
          ∧ putfoCommandLine ['x']
              = joinTokens ["scp".toList, "-v".toList, "-t".toList, ['x']]) :=
  ⟨by decide, c3_command_lines true true ['x'] ["p1".toList] (by decide)⟩

/-! ## The channel, the error values, and the client state -/

/-- The error values the engine raises: `SCPException(message)`
(`scpData` is the two-argument form of `_recv_confirm`'s final branch),
`socket.timeout` escaping uncaught, a failed `assert`, and fuel
exhaustion standing for a Python loop that would not terminate. -/
inductive PyErr where
  | scp (msg : String)
  | scpData (msg : String) (data : B)
  | sockTimeout
  | assertFail
  | fuelOut
deriving DecidableEq

deriving instance DecidableEq for Except

/-- `asunicode` restricted to the ASCII payloads exchanged here. -/
def asStr (s : B) : String := String.mk s

/-- The read side of an scp channel: the packets not yet consumed, and
whether the peer has closed — a `recv` on an empty buffer returns `b""`
after close and otherwise blocks until `socket.timeout` fires. -/
structure Chan where
  pending : List B
  eof : Bool
deriving DecidableEq

/-- `channel.recv(k)`: up to `k` bytes of the first pending packet; the
remainder of that packet stays buffered, as on a stream socket. -/
def chanRecv (k : Nat) (ch : Chan) : Except PyErr (B × Chan) :=
  match ch.pending with
  | [] => if ch.eof then .ok ([], ch) else .error .sockTimeout
  | c :: rest =>
    .ok (c.take k,
      { ch with pending := if c.drop k = [] then rest else c.drop k :: rest })

/-- A file produced by the receive engine — the dict appended to
`self._files` in `_recv_file` lines 517–525. -/
structure TFile where
  path : B
  name : B
  utime : Option (Nat × Nat)
  data : B
  mode : Nat
deriving DecidableEq

/-- The `SCPClient` state the claims observe: the channel and whether
`close()` has been called, the bytes written, the progress-callback log
(`hasProgress` mirrors `self._progress is not None`), the configuration
(`buff_size`, the stderr side-channel polled by `_recv_confirm`), the
send-side `_pushed` counter and the receive-side `_depth`, `_recv_dir`,
`_utime` (stored as `(atime, mtime)` exactly as `_set_time` builds it),
`_dirtimes` and `_files`. -/
structure ClientSt where
  chan : Chan
  chanClosed : Bool
  sent : List B
  progressLog : List (B × Nat × Nat)
  hasProgress : Bool
  buffSize : Nat
  stderrReady : Bool
  stderrData : B
  pushed : Int
  depth : Int
  recvDir : B
  utime : Option (Nat × Nat)
  dirtimes : List (B × (Nat × Option (Nat × Nat)))
  files : List TFile
deriving DecidableEq

/-- A fresh client over the given channel, fields as `__init__` leaves
them (buffer 16384, depth 0, empty receive directory). -/
def initSt (hasProgress : Bool) (ch : Chan) : ClientSt :=
  { chan := ch, chanClosed := false, sent := [], progressLog := [],
    hasProgress := hasProgress, buffSize := 16384, stderrReady := false,
    stderrData := [], pushed := 0, depth := 0, recvDir := [], utime := none,
    dirtimes := [], files := [] }

/-- `channel.sendall(bs)` / `channel.send(bs)`: log the written bytes. -/
def sendallB (bs : B) (st : ClientSt) : ClientSt := { st with sent := st.sent ++ [bs] }

/-- One `self._progress(name, total, sent, peername)` call (the peer
address argument is a constant and not modelled); call sites in the
source are guarded by `if self._progress:`, which is the `hasProgress`
check here. -/
def progressCall (name : B) (total sent : Nat) (st : ClientSt) : ClientSt :=
  if st.hasProgress then { st with progressLog := st.progressLog ++ [(name, total, sent)] }
  else st

/-! ## `_recv_confirm` (lines 413–431) — claims C1 and C4 -/

/-- `_recv_confirm`: read one byte (`recv(1)`); `\x00` is success;
`\x01` raises `SCPException(asunicode(msg[1:]))` — with a one-byte
`msg`, `msg[1:]` is always empty; then the stderr side-band, the
empty-read check, and the catch-all, in the source's order.  A timeout
on the read raises `SCPException("Timeout waiting for scp response")`. -/
def recvConfirm (st : ClientSt) : Except PyErr Unit × ClientSt :=
  match chanRecv 1 st.chan with
  | .error _ => (.error (.scp "Timeout waiting for scp response"), st)
  | .ok (msg, ch) =>
    let st := { st with chan := ch }
    if msg = ['\x00'] then (.ok (), st)
    else if msg = ['\x01'] then (.error (.scp (asStr (msg.drop 1))), st)
    else if st.stderrReady then (.error (.scp (asStr (st.stderrData.take 512))), st)
    else if msg = [] then (.error (.scp "No response from server"), st)
    else (.error (.scpData "Invalid response from server" msg), st)

/-! ## Receive-side handlers (claims C7, C9, C10) -/

/-- `_recv_popd` (lines 544–548): only at positive depth decrement
`_depth` and drop the last path segment of `_recv_dir`
(`os.path.split(...)[0]`); at depth 0 the record is a no-op. -/
def recvPopd (st : ClientSt) : ClientSt :=
  if 0 < st.depth then
    { st with depth := st.depth - 1, recvDir := pyDirname st.recvDir }
  else st

/-- Assignment into the `_dirtimes` dict. -/
def setAssoc (k : B) (v : Nat × Option (Nat × Nat)) :
    List (B × (Nat × Option (Nat × Nat))) → List (B × (Nat × Option (Nat × Nat)))
  | [] => [(k, v)]
  | (k', v') :: rest => if k' = k then (k, v) :: rest else (k', v') :: setAssoc k v rest

/-- `_recv_pushd` (lines 529–542): parse the `D` payload — on failure
send `\x01` and raise with the state otherwise untouched (the `_depth`
increment sits inside the `try`, after the parse) — then record the
directory's mode together with the pending timestamp under the extended
path, clear `_utime`, move `_recv_dir` down and increment `_depth`. -/
def recvPushd (cmd : B) (st : ClientSt) : Except PyErr Unit × ClientSt :=
  match parsePushLine cmd with
  | none => (.error (.scp "Bad directory format"), sendallB ['\x01'] st)
  | some (mode, name) =>
    let path := pyJoin st.recvDir name
    (.ok (), { st with depth := st.depth + 1,
                       dirtimes := setAssoc path (mode, st.utime) st.dirtimes,
                       utime := none, recvDir := path })

/-- `_set_time` (lines 454–463): on parse failure send `\x01` and raise,
leaving the pending timestamp unchanged; on success store
`(atime, mtime)` as the pending `_utime`, overwriting any unconsumed
prior value. -/
def setTime (cmd : B) (st : ClientSt) : Except PyErr Unit × ClientSt :=
  match parseTimeLine cmd with
  | none => (.error (.scp "Bad time format"), sendallB ['\x01'] st)
  | some (mtime, atime) => (.ok (), { st with utime := some (atime, mtime) })

/-- The body loop of `_recv_file` (lines 497–507): while fewer than
`size` bytes are buffered, shrink the request to `size - pos` once that
no longer exceeds the current buffer size — `buff_size` stays shrunk for
later iterations, and no request ever reaches past the declared size —
then receive and append; an empty receive raises `SCPException`, which
the surrounding `try` does *not* catch (only `SocketTimeout` is).  The
fuel bounds the iterations; every delivered byte advances `pos`, so
`size + 1` suffices whenever the loop can finish at all. -/
def recvBodyLoop (size : Nat) (name : B) :
    (buffSize pos : Nat) → B → ClientSt → Nat → Except PyErr B × ClientSt
  | _, pos, acc, st, 0 =>
    if pos < size then (.error .fuelOut, st) else (.ok acc, st)
  | buffSize, pos, acc, st, fuel + 1 =>
    if pos < size then
      let buffSize' := if size - pos ≤ buffSize then size - pos else buffSize
      match chanRecv buffSize' st.chan with
      | .error e => (.error e, st)
      | .ok (data, ch) =>
        let st := { st with chan := ch }
        if data = [] then (.error (.scp "Underlying channel was closed"), st)
        else
          let acc' := acc ++ data
          let st := progressCall name size acc'.length st
          recvBodyLoop size name buffSize' acc'.length acc' st fuel
    else (.ok acc, st)

/-- `_recv_file` (lines 465–527): parse the `C` payload — on failure
acknowledge with `\x01`, close the channel and raise — report initial
progress (a zero-size file reports `(name, 1, 1)` once), acknowledge
with `\x00`, run the body loop, read the trailing status (a nonzero
first byte raises with the peer's message), then append the
`TransferredFile` carrying the pending timestamp and clear `_utime`.
Timeouts inside the guarded region close the channel and raise; the
`BytesIO()` constructor cannot fail, so the `IOError` branch of lines
480–485 is unreachable and not modelled. -/
def recvFile (cmd : B) (st : ClientSt) : Except PyErr Unit × ClientSt :=
  match parseFileLine cmd with
  | none =>
    let st := sendallB ['\x01'] st
    (.error (.scp "Bad file format"), { st with chanClosed := true })
  | some (mode, size, name) =>
    let path := pyJoin st.recvDir name
    let st := if size = 0 then progressCall name 1 1 st else progressCall name size 0 st
    let st := sendallB ['\x00'] st
    match recvBodyLoop size name st.buffSize 0 [] st (size + 1) with
    | (.error e, st) =>
      if e = .sockTimeout then
        (.error (.scp "Error receiving, socket.timeout"), { st with chanClosed := true })
      else (.error e, st)
    | (.ok buf, st) =>
      match chanRecv 512 st.chan with
      | .error _ =>
        (.error (.scp "Error receiving, socket.timeout"), { st with chanClosed := true })
      | .ok (msg, ch) =>
        let st := { st with chan := ch }
        if msg ≠ [] ∧ msg.take 1 ≠ ['\x00'] then
          (.error (.scp (asStr (msg.drop 1))), st)
        else
          (.ok (), { st with
                     files := st.files ++ [{ path := path, name := name,
                                             utime := st.utime, data := buf,
                                             mode := mode }],
                     utime := none })

/-- `_recv_all` (lines 433–452): send a ready byte, receive one message
per iteration; an empty receive ends the loop; the message must end in a
newline (the `assert`), is stripped of it, and its first byte selects
the handler — an unknown byte raises with the peer's text.  Fuel bounds
the iterations. -/
def recvAll (st : ClientSt) : Nat → Except PyErr Unit × ClientSt
  | 0 => (.error .fuelOut, st)
  | fuel + 1 =>
    if st.chanClosed then (.ok (), st)
    else
      let st := sendallB ['\x00'] st
      match chanRecv 1024 st.chan with
      | .error e => (.error e, st)
      | .ok (msg, ch) =>
        let st := { st with chan := ch }
        if msg = [] then (.ok (), st)
        else if msg.getLast? ≠ some '\n' then (.error .assertFail, st)
        else
          match msg.dropLast with
          | [] => (.error (.scp (asStr [])), st)
          | code :: cmd =>
            match (if code = 'C' then recvFile cmd st
              else if code = 'T' then setTime cmd st
              else if code = 'D' then recvPushd cmd st
              else if code = 'E' then (.ok (), recvPopd st)
              else (.error (.scp (asStr cmd)), st)) with
            | (.ok (), st') => recvAll st' fuel
            | err => err

/-! ## Send-side engine (claims C1, C4, C8) -/

/-- An opened readable byte stream with its position. -/
structure FileObj where
  data : B
  pos : Nat
deriving DecidableEq

/-- `fl.read(k)`: up to `k` bytes from the current position. -/
def flRead (k : Nat) (fl : FileObj) : B × FileObj :=
  let d := (fl.data.drop fl.pos).take k
  (d, { fl with pos := fl.pos + d.length })

/-- The body loop of `_send_file` (lines 348–353): while `file_pos`
(which starts at `0` and is refreshed from `fl.tell()` after each read)
is below the declared size, read one buffer, send it, and report
progress.  A read at end-of-file returns `b""` and never advances
`file_pos`, on which the Python loop spins forever — the fuel reports
that as exhaustion. -/
def sendFileLoop (size : Nat) (name : B) (buffSize : Nat) :
    (filePos : Nat) → FileObj → ClientSt → Nat → Except PyErr Unit × FileObj × ClientSt
  | filePos, fl, st, 0 =>
    if filePos < size then (.error .fuelOut, fl, st) else (.ok (), fl, st)
  | filePos, fl, st, fuel + 1 =>
    if filePos < size then
      let (data, fl') := flRead buffSize fl
      let st := sendallB data st
      let st := progressCall name size fl'.pos st
      sendFileLoop size name buffSize fl'.pos fl' st fuel
    else (.ok (), fl, st)

/-- `_send_file` (lines 329–355): send the `C` record (basename with
newlines escaped), await one confirmation, report initial progress (a
zero-size file reports `(name, 1, 1)` once), stream the body, send the
`\x00` terminator and await the final confirmation. -/
def sendFile (fl : FileObj) (name : B) (mode : B) (size : Nat) (st : ClientSt) :
    Except PyErr Unit × FileObj × ClientSt :=
  let bn := escapeNl (pyBasename name)
  let st := sendallB ('C' :: (mode ++ ' ' :: fmtDec size ++ ' ' :: bn ++ ['\n'])) st
  match recvConfirm st with
  | (.error e, st) => (.error e, fl, st)
  | (.ok (), st) =>
    let st := if size = 0 then progressCall bn 1 1 st else progressCall bn size 0 st
    match sendFileLoop size bn st.buffSize 0 fl st (size + 1) with
    | (.error e, fl, st) => (.error e, fl, st)
    | (.ok (), fl, st) =>
      let st := sendallB ['\x00'] st
      match recvConfirm st with
      | (.error e, st) => (.error e, fl, st)
      | (.ok (), st) => (.ok (), fl, st)

/-- `_send_time` (lines 409–411). -/
def sendTime (mtime atime : Nat) (st : ClientSt) : Except PyErr Unit × ClientSt :=
  recvConfirm (sendallB (encodeRecord (.time mtime atime)) st)

/-- What `_send_files` (lines 320–327) obtains for one path: the
`_read_stats` results (a query to the external filesystem, the mode
already rendered as `f"{st_mode:04o}"`) and the opened file's bytes. -/
structure FilePlan where
  name : B
  mode : B
  size : Nat
  mtime : Nat
  atime : Nat
  data : B
deriving DecidableEq

/-- `_send_files`: per file, optionally a `T` record (with its
confirmation), then the file itself. -/
def sendFiles (preserve : Bool) : List FilePlan → ClientSt → Except PyErr Unit × ClientSt
  | [], st => (.ok (), st)
  | p :: ps, st =>
    match (if preserve then sendTime p.mtime p.atime st else (.ok (), st)) with
    | (.error e, st) => (.error e, st)
    | (.ok (), st) =>
      match sendFile ⟨p.data, 0⟩ p.name p.mode p.size st with
      | (.error e, _, st) => (.error e, st)
      | (.ok (), _, st) => sendFiles preserve ps st

/-- The non-recursive path of `put` (lines 200–219): open the channel,
reset `_pushed`, set the timeout, issue the command (the command string
itself is `putCommandLine`, proven separately), await one confirmation,
send the files, then `self.close()`.  There is no `try`/`finally`: an
exception raised by any confirmation propagates before line 219 is
reached, leaving the channel open. -/
def putOp (preserve : Bool) (plans : List FilePlan) (st : ClientSt) :
    Except PyErr Unit × ClientSt :=
  let st := { st with chanClosed := false, pushed := 0 }
  match recvConfirm st with
  | (.error e, st) => (.error e, st)
  | (.ok (), st) =>
    match sendFiles preserve plans st with
    | (.error e, st) => (.error e, st)
    | (.ok (), st) => (.ok (), { st with chanClosed := true })

/-- `putfo` (lines 221–253) with the size supplied: open, issue the
command, await one confirmation, send the single stream, close.  Like
`put`, no `finally` protects the close. -/
def putfoOp (data : B) (remotePath : B) (mode : B) (size : Nat) (st : ClientSt) :
    Except PyErr Unit × ClientSt :=
  let st := { st with chanClosed := false }
  match recvConfirm st with
  | (.error e, st) => (.error e, st)
  | (.ok (), st) =>
    match sendFile ⟨data, 0⟩ remotePath mode size st with
    | (.error e, _, st) => (.error e, st)
    | (.ok (), _, st) => (.ok (), { st with chanClosed := true })

/-- `getfo` (lines 255–294): reset `_files` and `_depth`, open the
channel and reset `_pushed`, issue the command (`getfoCommandLine`,
proven separately), run the receive loop, close, return the files.
Again no `finally`: an exception out of `_recv_all` skips the close. -/
def getfoOp (st : ClientSt) (fuel : Nat) : Except PyErr (List TFile) × ClientSt :=
  let st := { st with files := [], depth := 0, chanClosed := false, pushed := 0 }
  match recvAll st fuel with
  | (.ok (), st) => (.ok ({ st with chanClosed := true }).files, { st with chanClosed := true })
  | (.error e, st) => (.error e, st)

/-! ## Claim C1 — the `\x01` error message -/

/-- C1 (code bug): when the peer answers a control record with
`\x01bad mode\n`, `_recv_confirm` raises `SCPException("")`: the
`recv(1)` on line 417 reads only the flag byte, so the `msg[1:]` slice
on line 424 — the expression that was meant to carry the error text — is
always empty, and the claimed message `"bad mode"` is lost. -/
theorem c1_recv_confirm_error_message_lost :
    (recvConfirm (initSt false ⟨['\x01' :: "bad mode\n".toList], false⟩)).1
        = .error (.scp "")
      ∧ ("" : String) ≠ "bad mode" := by
  refine ⟨rfl, by decide⟩

/-! ## Claim C7 — receive-side depth bookkeeping -/

/-- A stream of incoming `D` (with payload) and `E` records, dispatched
to `_recv_pushd` / `_recv_popd` as `_recv_all` does; a push whose
payload fails to parse aborts the run, as the raised exception would. -/
def runDE : List (Option B) → ClientSt → Except PyErr Unit × ClientSt
  | [], st => (.ok (), st)
  | none :: evs, st => runDE evs (recvPopd st)
  | some cmd :: evs, st =>
    match recvPushd cmd st with
    | (.ok (), st') => runDE evs st'
    | err => err

lemma recvPopd_depth_nonneg {st : ClientSt} (h : 0 ≤ st.depth) :
    0 ≤ (recvPopd st).depth := by
  unfold recvPopd
  split
  · next hpos => simp only []; omega
  · exact h

lemma runDE_depth_nonneg : ∀ (evs : List (Option B)) (st : ClientSt),
    0 ≤ st.depth → 0 ≤ (runDE evs st).2.depth := by
  intro evs
  induction evs with
  | nil => intro st h; exact h
  | cons e evs ih =>
    intro st h
    cases e with
    | none => exact ih _ (recvPopd_depth_nonneg h)
    | some cmd =>
      rw [runDE]
      cases hp : parsePushLine cmd with
      | none => simp only [recvPushd, hp]; exact h
      | some v =>
        obtain ⟨mode, name⟩ := v
        simp only [recvPushd, hp]
        exact ih _ (by simp only []; omega)

/-- C7: the receive-side depth counter never becomes negative under any
sequence of incoming `D`/`E` records; a successfully parsed `D`
increments `_depth` by exactly 1; an `E` at positive depth decrements it
by exactly 1 and drops the last segment of `_recv_dir`
(`os.path.split(...)[0]`); an `E` at depth 0 is a no-op that raises
nothing and leaves the whole state unchanged. -/
theorem c7_recv_depth_invariants (cmd : B) (evs : List (Option B)) (st : ClientSt) :
    ((recvPushd cmd st).1 = .ok () → (recvPushd cmd st).2.depth = st.depth + 1)
      ∧ (0 < st.depth →
          (recvPopd st).depth = st.depth - 1
            ∧ (recvPopd st).recvDir = pyDirname st.recvDir)
      ∧ (st.depth = 0 → recvPopd st = st)
      ∧ (0 ≤ st.depth → 0 ≤ (runDE evs st).2.depth) := by
  refine ⟨?_, ?_, ?_, runDE_depth_nonneg evs st⟩
  · intro hok
    unfold recvPushd at hok ⊢
    cases hp : parsePushLine cmd with
    | none => rw [hp] at hok; exact absurd hok (by simp)
    | some v => obtain ⟨mode, name⟩ := v; simp [hp]
  · intro hpos
    unfold recvPopd
    rw [if_pos hpos]
    exact ⟨rfl, rfl⟩
  · intro hz
    unfold recvPopd
    rw [if_neg (by omega)]

/-- Witness for C7: two pops on a fresh client keep the depth at 0. -/
theorem c7_recv_depth_invariants_witness :
    (0 : Int) ≤ (initSt false ⟨[], true⟩).depth
      ∧ 0 ≤ (runDE [none, none] (initSt false ⟨[], true⟩)).2.depth :=
  ⟨by decide,
    (c7_recv_depth_invariants [] [none, none] (initSt false ⟨[], true⟩)).2.2.2 (by decide)⟩

/-! ## Claim C10 — the body loop never reads past the declared size -/

lemma progressCall_chan (name : B) (t s : Nat) (st : ClientSt) :
    (progressCall name t s st).chan = st.chan := by
  unfold progressCall
  split <;> rfl

lemma flatten_pushback (c : B) (k : Nat) (rest : List B) :
    (if c.drop k = [] then rest else c.drop k :: rest).flatten = c.drop k ++ rest.flatten := by
  split
  · next h => rw [h]; rfl
  · rfl

/-- Run of the `_recv_file` body loop: on a successful exit the buffer
holds exactly `size` bytes — `acc` extended by precisely the bytes
consumed from the channel — and everything past them, the trailing
status byte included, is still pending. -/
lemma recvBodyLoop_consumes (size : Nat) (name : B) :
    ∀ (fuel buff pos : Nat) (acc : B) (st : ClientSt) (buf : B) (st' : ClientSt),
      pos = acc.length → pos ≤ size →
      recvBodyLoop size name buff pos acc st fuel = (.ok buf, st') →
      buf.length = size
        ∧ ∃ consumed, buf = acc ++ consumed
            ∧ consumed ++ st'.chan.pending.flatten = st.chan.pending.flatten := by
  intro fuel
  induction fuel with
  | zero =>
    intro buff pos acc st buf st' hpos hle hrun
    rw [recvBodyLoop] at hrun
    by_cases h : pos < size
    · rw [if_pos h] at hrun; exact absurd hrun (by simp)
    · rw [if_neg h] at hrun
      obtain ⟨rfl, rfl⟩ : acc = buf ∧ st = st' := by
        simpa using hrun
      exact ⟨by omega, [], by simp, by simp⟩
  | succ fuel ih =>
    intro buff pos acc st buf st' hpos hle hrun
    rw [recvBodyLoop] at hrun
    by_cases h : pos < size
    · rw [if_pos h] at hrun
      set kk := if size - pos ≤ buff then size - pos else buff with hkk
      have hkkle : kk ≤ size - pos := by
        rw [hkk]; split <;> omega
      cases hcr : chanRecv kk st.chan with
      | error e => simp only [hcr] at hrun; exact absurd hrun (by simp)
      | ok v =>
        obtain ⟨data, ch⟩ := v
        simp only [hcr] at hrun
        by_cases hd : data = []
        · rw [if_pos hd] at hrun; exact absurd hrun (by simp)
        · rw [if_neg hd] at hrun
          have hdata : data.length ≤ kk ∧ data ++ ch.pending.flatten = st.chan.pending.flatten := by
            unfold chanRecv at hcr
            cases hpend : st.chan.pending with
            | nil =>
              rw [hpend] at hcr
              by_cases he : st.chan.eof
              · rw [if_pos he] at hcr
                obtain ⟨h1, h2⟩ : ([] : B) = data ∧ st.chan = ch := by simpa using hcr
                exact absurd h1.symm hd
              · rw [if_neg he] at hcr; exact absurd hcr (by simp)
            | cons c rest =>
              rw [hpend] at hcr
              obtain ⟨h1, h2⟩ : c.take kk = data
                  ∧ ({ st.chan with
                       pending := if c.drop kk = [] then rest else c.drop kk :: rest } : Chan)
                      = ch := by
                simpa using hcr
              constructor
              · rw [← h1]; exact List.length_take_le kk c
              · rw [← h1, ← h2]
                show c.take kk ++ (if c.drop kk = [] then rest else c.drop kk :: rest).flatten
                    = (c :: rest).flatten
                rw [flatten_pushback, ← List.append_assoc, List.take_append_drop, List.flatten_cons]
          obtain ⟨hdlen, hjoin0⟩ := hdata
          have hih := ih kk (acc ++ data).length (acc ++ data)
            (progressCall name size (acc ++ data).length { st with chan := ch }) buf st'
            rfl (by simp only [List.length_append]; omega) hrun
          obtain ⟨hlen, consumed', hbuf', hjoin'⟩ := hih
          rw [progressCall_chan] at hjoin'
          refine ⟨hlen, data ++ consumed', by rw [hbuf']; simp, ?_⟩
          show data ++ consumed' ++ st'.chan.pending.flatten = st.chan.pending.flatten
          rw [List.append_assoc, hjoin', hjoin0]
    · rw [if_neg h] at hrun
      obtain ⟨rfl, rfl⟩ : acc = buf ∧ st = st' := by
        simpa using hrun
      exact ⟨by omega, [], by simp, by simp⟩

/-- C10: whenever the `_recv_file` body loop for a declared size `N`
completes normally, the stored buffer holds exactly the first `N` bytes
of the incoming stream, and everything after them — in particular the
trailing status byte — is still pending on the channel, never consumed
as body data: every read request is capped at `N` minus the bytes
already received once fewer than a full buffer remains. -/
theorem c10_recv_body_capped (size buff : Nat) (name : B) (st : ClientSt)
    (buf : B) (st' : ClientSt)
    (h : recvBodyLoop size name buff 0 [] st (size + 1) = (.ok buf, st')) :
    buf.length = size ∧ buf ++ st'.chan.pending.flatten = st.chan.pending.flatten := by
  obtain ⟨hlen, consumed, hbuf, hjoin⟩ :=
    recvBodyLoop_consumes size name (size + 1) buff 0 [] st buf st' rfl (by omega) h
  rw [List.nil_append] at hbuf
  exact ⟨hlen, by rw [hbuf]; exact hjoin⟩

/-- Witness for C10: a 3-byte body with a 2-byte buffer; the trailing
`\x00` stays on the channel. -/
theorem c10_recv_body_capped_witness :
    (recvBodyLoop 3 ['f'] 2 0 [] (initSt false ⟨[['a', 'b', 'c', '\x00']], false⟩) (3 + 1)
        = (.ok ['a', 'b', 'c'],
          { initSt false ⟨[['a', 'b', 'c', '\x00']], false⟩ with chan := ⟨[['\x00']], false⟩ }))
      ∧ (['a', 'b', 'c'] : B).length = 3
      ∧ ['a', 'b', 'c']
            ++ ({ initSt false ⟨[['a', 'b', 'c', '\x00']], false⟩ with
                  chan := (⟨[['\x00']], false⟩ : Chan) } : ClientSt).chan.pending.flatten
          = (initSt false ⟨[['a', 'b', 'c', '\x00']], false⟩).chan.pending.flatten :=
  ⟨by decide, c10_recv_body_capped 3 2 ['f'] _ _ _ (by decide)⟩


/-! ## Claim C9 — the pending timestamp -/

lemma progressCall_files (n : B) (t s : Nat) (st : ClientSt) :
    (progressCall n t s st).files = st.files := by
  unfold progressCall; split <;> rfl

lemma progressCall_utime (n : B) (t s : Nat) (st : ClientSt) :
    (progressCall n t s st).utime = st.utime := by
  unfold progressCall; split <;> rfl

/-- The `_recv_file` body loop touches only the channel and the progress
log: the accumulated files and the pending timestamp pass through. -/
lemma recvBodyLoop_keeps (size : Nat) (name : B) :
    ∀ (fuel buff pos : Nat) (acc : B) (st : ClientSt) (res : Except PyErr B)
      (st' : ClientSt),
      recvBodyLoop size name buff pos acc st fuel = (res, st') →
      st'.files = st.files ∧ st'.utime = st.utime := by
  intro fuel
  induction fuel with
  | zero =>
    intro buff pos acc st res st' h
    rw [recvBodyLoop] at h
    split at h <;> (injection h with h1 h2; subst h2; exact ⟨rfl, rfl⟩)
  | succ fuel ih =>
    intro buff pos acc st res st' h
    rw [recvBodyLoop] at h
    by_cases hp : pos < size
    · rw [if_pos hp] at h
      cases hcr : chanRecv (if size - pos ≤ buff then size - pos else buff) st.chan with
      | error e =>
        simp only [hcr] at h
        injection h with h1 h2; subst h2; exact ⟨rfl, rfl⟩
      | ok v =>
        obtain ⟨data, ch⟩ := v
        simp only [hcr] at h
        by_cases hd : data = []
        · rw [if_pos hd] at h
          injection h with h1 h2; subst h2; exact ⟨rfl, rfl⟩
        · rw [if_neg hd] at h
          obtain ⟨h1, h2⟩ := ih _ _ _ _ _ _ h
          rw [h1, h2, progressCall_files, progressCall_utime]
          exact ⟨rfl, rfl⟩
    · rw [if_neg hp] at h
      injection h with h1 h2; subst h2; exact ⟨rfl, rfl⟩

/-- C9: the pending timestamp is a single slot: a successfully parsed
`T` record overwrites whatever value was pending (last write wins,
storing `(atime, mtime)`); a successful `C` record clears the slot and
attaches the previously pending value to the one `TransferredFile` it
appends; a successful `D` record clears the slot and attaches the
pending value to the `_dirtimes` entry it records for the pushed
directory. -/
theorem c9_pending_timestamp (cmd : B) (st : ClientSt) :
    (∀ mt at', parseTimeLine cmd = some (mt, at') →
        setTime cmd st = (.ok (), { st with utime := some (at', mt) }))
      ∧ ((recvFile cmd st).1 = .ok () →
          (recvFile cmd st).2.utime = none
            ∧ ∃ f, (recvFile cmd st).2.files = st.files ++ [f] ∧ f.utime = st.utime)
      ∧ ((recvPushd cmd st).1 = .ok () →
          (recvPushd cmd st).2.utime = none
            ∧ ∃ mode name, parsePushLine cmd = some (mode, name)
                ∧ (recvPushd cmd st).2.dirtimes
                    = setAssoc (pyJoin st.recvDir name) (mode, st.utime) st.dirtimes) := by
  refine ⟨?_, ?_, ?_⟩
  · intro mt at' hp
    unfold setTime
    rw [hp]
  · intro hok
    rcases hE : recvFile cmd st with ⟨res, st2⟩
    rw [hE] at hok
    have hres : res = Except.ok () := hok
    subst hres
    show st2.utime = none ∧ ∃ f, st2.files = st.files ++ [f] ∧ f.utime = st.utime
    unfold recvFile at hE
    split at hE
    · exact absurd (congrArg Prod.fst hE) (by simp)
    · next m sz nm _hpf =>
      simp only [] at hE
      split at hE
      · split at hE <;> exact absurd (congrArg Prod.fst hE) (by simp)
      · next buf bst heq =>
        obtain ⟨hfs0, hut0⟩ := recvBodyLoop_keeps sz nm _ _ _ _ _ _ _ heq
        have hfs : bst.files = st.files := by
          rw [hfs0]
          show (if sz = 0 then progressCall nm 1 1 st
              else progressCall nm sz 0 st).files = st.files
          rw [apply_ite ClientSt.files, progressCall_files, progressCall_files, ite_self]
        have hut : bst.utime = st.utime := by
          rw [hut0]
          show (if sz = 0 then progressCall nm 1 1 st
              else progressCall nm sz 0 st).utime = st.utime
          rw [apply_ite ClientSt.utime, progressCall_utime, progressCall_utime, ite_self]
        split at hE
        · exact absurd (congrArg Prod.fst hE) (by simp)
        · split at hE
          · exact absurd (congrArg Prod.fst hE) (by simp)
          · injection hE with h1 h2
            subst h2
            refine ⟨rfl, ⟨pyJoin st.recvDir nm, nm, bst.utime, buf, m⟩, ?_, hut⟩
            show bst.files ++ [(⟨pyJoin st.recvDir nm, nm, bst.utime, buf, m⟩ : TFile)]
                = st.files ++ [(⟨pyJoin st.recvDir nm, nm, bst.utime, buf, m⟩ : TFile)]
            rw [hfs]
  · intro hok
    rcases hE : recvPushd cmd st with ⟨res, st2⟩
    rw [hE] at hok
    have hres : res = Except.ok () := hok
    subst hres
    show st2.utime = none ∧ ∃ mode name, parsePushLine cmd = some (mode, name)
        ∧ st2.dirtimes = setAssoc (pyJoin st.recvDir name) (mode, st.utime) st.dirtimes
    unfold recvPushd at hE
    split at hE
    · exact absurd (congrArg Prod.fst hE) (by simp)
    · next m nm hpp =>
      simp only [] at hE
      injection hE with h1 h2
      subst h2
      exact ⟨rfl, m, nm, hpp, rfl⟩

theorem c9_pending_timestamp_witness :
    setTime (fmtDec 2 ++ ' ' :: '0' :: ' ' :: (fmtDec 1 ++ ' ' :: ['0']))
        (initSt false ⟨[], false⟩)
      = (.ok (), { initSt false ⟨[], false⟩ with utime := some (1, 2) })
    ∧ ((recvPushd (fmtOct4 493 ++ ' ' :: '0' :: ' ' :: ['d']) (initSt false ⟨[], false⟩)).2.utime
          = none
        ∧ ∃ mode name,
            parsePushLine (fmtOct4 493 ++ ' ' :: '0' :: ' ' :: ['d']) = some (mode, name)
              ∧ (recvPushd (fmtOct4 493 ++ ' ' :: '0' :: ' ' :: ['d'])
                    (initSt false ⟨[], false⟩)).2.dirtimes
                  = setAssoc (pyJoin (initSt false ⟨[], false⟩).recvDir name)
                      (mode, (initSt false ⟨[], false⟩).utime)
                      (initSt false ⟨[], false⟩).dirtimes) :=
  ⟨(c9_pending_timestamp _ (initSt false ⟨[], false⟩)).1 2 1
      ((parseTimeLine_inv 2 1).trans (by decide)),
   (c9_pending_timestamp _ (initSt false ⟨[], false⟩)).2.2
      (by simp [recvPushd, parsePushLine_inv 493 ['d']])⟩

/-! ## Claim C8 — progress reporting -/

/-- The cumulative positions the `_send_file` body loop passes to the
progress callback: from `pos`, each chunk advances by
`min buff (size - pos)` until `size` is reached. -/
def sendStopsF (size buff : Nat) : Nat → Nat → List Nat
  | _, 0 => []
  | pos, fuel + 1 =>
    if pos < size then
      (pos + min buff (size - pos)) :: sendStopsF size buff (pos + min buff (size - pos)) fuel
    else []

/-- Cumulative lengths of a chunk list, starting from `pos`. -/
def cumLens (pos : Nat) : List B → List Nat
  | [] => []
  | c :: cs => (pos + c.length) :: cumLens (pos + c.length) cs

/-- `_recv_confirm` on a channel whose next packet is the single `\x00`
acknowledgement byte succeeds and just consumes that packet. -/
lemma recvConfirm_ack (st : ClientSt) (rest : List B)
    (h : st.chan.pending = ['\x00'] :: rest) :
    recvConfirm st = (.ok (), { st with chan := ⟨rest, st.chan.eof⟩ }) := by
  unfold recvConfirm chanRecv
  rw [h]
  simp

/-- A full successful run of the `_send_file` body loop: with enough
fuel, a buffer of at least one byte and a stream of exactly the declared
size, the loop reads to the end, appends one `sendall` per chunk and —
when a progress callback is configured — one progress entry per chunk at
the cumulative position. -/
lemma sendFileLoop_run (size : Nat) (name : B) (buff : Nat) :
    ∀ (fuel pos : Nat) (fl : FileObj) (st : ClientSt),
      fl.data.length = size → fl.pos = pos → pos ≤ size → 0 < buff →
      size - pos ≤ fuel →
      ∃ sents,
        sendFileLoop size name buff pos fl st fuel
          = (.ok (), ⟨fl.data, size⟩,
             { st with
                 sent := st.sent ++ sents,
                 progressLog := st.progressLog
                   ++ (if st.hasProgress then
                         (sendStopsF size buff pos fuel).map (fun p => (name, size, p))
                       else []) }) := by
  intro fuel
  induction fuel with
  | zero =>
    intro pos fl st hlen hpos hle hb hfu
    subst hpos
    refine ⟨[], ?_⟩
    rw [sendFileLoop, if_neg (by omega)]
    rw [sendStopsF]
    have hfl : (⟨fl.data, size⟩ : FileObj) = fl := by
      cases fl with
      | mk d p =>
        simp only
        rw [show size = p from by simp only at hle hfu ⊢; omega]
    rw [hfl]
    simp
  | succ fuel ih =>
    intro pos fl st hlen hpos hle hb hfu
    subst hpos
    by_cases hlt : fl.pos < size
    · rw [sendFileLoop, if_pos hlt]
      simp only [flRead]
      have hdl : ((fl.data.drop fl.pos).take buff).length = min buff (size - fl.pos) := by
        simp [List.length_take, hlen]
      have hmin1 : 1 ≤ min buff (size - fl.pos) := Nat.le_min.mpr ⟨hb, by omega⟩
      have hmin2 : min buff (size - fl.pos) ≤ size - fl.pos := Nat.min_le_right _ _
      obtain ⟨sents', hrun⟩ := ih
        (fl.pos + ((fl.data.drop fl.pos).take buff).length)
        ⟨fl.data, fl.pos + ((fl.data.drop fl.pos).take buff).length⟩
        (progressCall name size
          (fl.pos + ((fl.data.drop fl.pos).take buff).length)
          (sendallB ((fl.data.drop fl.pos).take buff) st))
        hlen rfl (by rw [hdl]; omega) hb (by rw [hdl]; omega)
      refine ⟨(fl.data.drop fl.pos).take buff :: sents', ?_⟩
      rw [show ({ fl with pos := fl.pos + ((fl.data.drop fl.pos).take buff).length } : FileObj)
          = ⟨fl.data, fl.pos + ((fl.data.drop fl.pos).take buff).length⟩ from rfl]
      rw [hrun]
      rw [sendStopsF, if_pos hlt]
      by_cases hp : st.hasProgress
      · simp [progressCall, sendallB, hp, hdl]
      · simp [progressCall, sendallB, hp, hdl]
    · refine ⟨[], ?_⟩
      rw [sendFileLoop, if_neg hlt]
      rw [sendStopsF, if_neg hlt]
      have hfl : (⟨fl.data, size⟩ : FileObj) = fl := by
        cases fl with
        | mk d p =>
          simp only
          rw [show size = p from by simp only at hle hlt ⊢; omega]
      rw [hfl]
      simp

/-- A successful run of the `_recv_file` body loop reports — when a
progress callback is configured — exactly one entry per received chunk,
at the cumulative byte count after that chunk; the chunks are nonempty
and together form the bytes appended to the accumulator. -/
lemma recvBodyLoop_progress (size : Nat) (name : B) :
    ∀ (fuel buff pos : Nat) (acc : B) (st : ClientSt) (buf : B) (st' : ClientSt),
      recvBodyLoop size name buff pos acc st fuel = (.ok buf, st') →
      acc.length = pos →
      ∃ chunks,
        (∀ c ∈ chunks, c ≠ [])
          ∧ buf = acc ++ chunks.flatten
          ∧ st'.progressLog = st.progressLog
              ++ (if st.hasProgress then
                    (cumLens pos chunks).map (fun p => (name, size, p))
                  else []) := by
  intro fuel
  induction fuel with
  | zero =>
    intro buff pos acc st buf st' h hacc
    rw [recvBodyLoop] at h
    split at h
    · exact absurd (congrArg Prod.fst h) (by simp)
    · injection h with h1 h2
      injection h1 with h1
      subst h1; subst h2
      exact ⟨[], by simp [cumLens]⟩
  | succ fuel ih =>
    intro buff pos acc st buf st' h hacc
    rw [recvBodyLoop] at h
    by_cases hlt : pos < size
    · rw [if_pos hlt] at h
      simp only [] at h
      cases hcr : chanRecv (if size - pos ≤ buff then size - pos else buff) st.chan with
      | error e =>
        rw [hcr] at h
        exact absurd (congrArg Prod.fst h) (by simp)
      | ok v =>
        obtain ⟨data, ch⟩ := v
        rw [hcr] at h
        simp only [] at h
        by_cases hd : data = []
        · rw [if_pos hd] at h
          exact absurd (congrArg Prod.fst h) (by simp)
        · rw [if_neg hd] at h
          obtain ⟨chunks', hne, hbuf, hlog⟩ := ih _ _ _ _ _ _ h (by simp)
          refine ⟨data :: chunks', ?_, ?_, ?_⟩
          · intro c hc
            rcases List.mem_cons.mp hc with rfl | hc
            · exact hd
            · exact hne c hc
          · rw [hbuf]; simp
          · rw [hlog]
            have hlen : (acc ++ data).length = pos + data.length := by
              simp [hacc]
            rw [show cumLens pos (data :: chunks')
                = (pos + data.length) :: cumLens (pos + data.length) chunks' from rfl]
            by_cases hp : st.hasProgress
            · simp [progressCall, hp, hlen]
            · simp [progressCall, hp]
    · rw [if_neg hlt] at h
      injection h with h1 h2
      injection h1 with h1
      subst h1; subst h2
      exact ⟨[], by simp [cumLens]⟩

lemma progressCall_buffSize (n : B) (t s : Nat) (st : ClientSt) :
    (progressCall n t s st).buffSize = st.buffSize := by
  unfold progressCall; split <;> rfl

lemma progressCall_hasProgress (n : B) (t s : Nat) (st : ClientSt) :
    (progressCall n t s st).hasProgress = st.hasProgress := by
  unfold progressCall; split <;> rfl

lemma progressCall_progressLog (n : B) (t s : Nat) (st : ClientSt) :
    (progressCall n t s st).progressLog
      = st.progressLog ++ (if st.hasProgress then [(n, t, s)] else []) := by
  unfold progressCall
  split <;> simp_all

/-- `sendFileLoop_run`, restated on the projections the callers read. -/
lemma sendFileLoop_run_proj (size : Nat) (name : B) (buff fuel pos : Nat)
    (fl : FileObj) (st : ClientSt)
    (hlen : fl.data.length = size) (hpos : fl.pos = pos) (hle : pos ≤ size)
    (hb : 0 < buff) (hfu : size - pos ≤ fuel) :
    ∃ st4, sendFileLoop size name buff pos fl st fuel = (.ok (), ⟨fl.data, size⟩, st4)
      ∧ st4.chan = st.chan
      ∧ st4.hasProgress = st.hasProgress
      ∧ st4.progressLog = st.progressLog
          ++ (if st.hasProgress then
                (sendStopsF size buff pos fuel).map (fun p => (name, size, p))
              else []) := by
  obtain ⟨sents, h⟩ := sendFileLoop_run size name buff fuel pos fl st hlen hpos hle hb hfu
  exact ⟨_, h, rfl, rfl, rfl⟩

lemma flatten_nil_of_all_ne (chunks : List B) (hne : ∀ c ∈ chunks, c ≠ [])
    (h : chunks.flatten.length = 0) : chunks = [] := by
  cases chunks with
  | nil => rfl
  | cons c cs =>
    exfalso
    have hc := hne c (by simp)
    have hpos : 0 < c.length := List.length_pos.mpr hc
    rw [List.flatten_cons, List.length_append] at h
    omega

/-- C8: progress reporting, both directions.  On the send side, with a
cooperative peer (two acknowledgement bytes pending) and a stream of
exactly the declared size, `_send_file` succeeds; when a progress
callback is configured, a zero-size file produces exactly one event
`(name, 1, 1)`, and a positive-size file produces the initial event
`(name, size, 0)` followed by one event per chunk at the cumulative
position (`buff_size`-sized steps, capped at `size`).  On the receive
side, a successful `_recv_file` produces, when a callback is configured,
exactly one event `(name, 1, 1)` for a zero-size file, and otherwise
`(name, size, 0)` followed by one event per received nonempty chunk at
the cumulative byte count; the chunks together have exactly `size`
bytes. -/
theorem c8_progress_reporting
    (name mode data : B) (sizeS : Nat) (st : ClientSt) (rest : List B)
    (cmd : B) (m sizeR : Nat) (nm : B) (stR : ClientSt)
    (hlen : data.length = sizeS)
    (hch : st.chan.pending = ['\x00'] :: ['\x00'] :: rest)
    (hbuff : 0 < st.buffSize)
    (hpf : parseFileLine cmd = some (m, sizeR, nm))
    (hok : (recvFile cmd stR).1 = .ok ()) :
    (∃ st', sendFile ⟨data, 0⟩ name mode sizeS st = (.ok (), (⟨data, sizeS⟩ : FileObj), st')
        ∧ st'.progressLog = st.progressLog
            ++ (if st.hasProgress then
                  (if sizeS = 0 then [(escapeNl (pyBasename name), 1, 1)]
                   else (escapeNl (pyBasename name), sizeS, 0)
                     :: (sendStopsF sizeS st.buffSize 0 (sizeS + 1)).map
                          (fun p => (escapeNl (pyBasename name), sizeS, p)))
                else []))
    ∧ (∃ chunks stT, recvFile cmd stR = (.ok (), stT)
        ∧ (∀ c ∈ chunks, c ≠ [])
        ∧ chunks.flatten.length = sizeR
        ∧ stT.progressLog = stR.progressLog
            ++ (if stR.hasProgress then
                  (if sizeR = 0 then [(nm, 1, 1)]
                   else (nm, sizeR, 0) :: (cumLens 0 chunks).map (fun p => (nm, sizeR, p)))
                else [])) := by
  constructor
  · unfold sendFile
    simp only []
    split
    · next e stE heqC =>
      rw [recvConfirm_ack
        (sendallB ('C' :: (mode ++ ' ' :: fmtDec sizeS ++ ' ' :: escapeNl (pyBasename name) ++ ['\n'])) st)
        (['\x00'] :: rest) hch] at heqC
      exact absurd (congrArg Prod.fst heqC) (by simp)
    · next stC heqC =>
      rw [recvConfirm_ack
        (sendallB ('C' :: (mode ++ ' ' :: fmtDec sizeS ++ ' ' :: escapeNl (pyBasename name) ++ ['\n'])) st)
        (['\x00'] :: rest) hch] at heqC
      injection heqC with h1 h2
      have hCpend : stC.chan.pending = ['\x00'] :: rest := by rw [← h2]
      have hCbuff : stC.buffSize = st.buffSize := by rw [← h2]; rfl
      have hCprog : stC.hasProgress = st.hasProgress := by rw [← h2]; rfl
      have hClog : stC.progressLog = st.progressLog := by rw [← h2]; rfl
      have hIfBuff :
          (if sizeS = 0 then progressCall (escapeNl (pyBasename name)) 1 1 stC
           else progressCall (escapeNl (pyBasename name)) sizeS 0 stC).buffSize
            = st.buffSize := by
        rw [apply_ite ClientSt.buffSize, progressCall_buffSize, progressCall_buffSize,
          ite_self, hCbuff]
      obtain ⟨st4, hrun, h4chan, h4prog, h4log⟩ := sendFileLoop_run_proj sizeS
        (escapeNl (pyBasename name))
        (if sizeS = 0 then progressCall (escapeNl (pyBasename name)) 1 1 stC
         else progressCall (escapeNl (pyBasename name)) sizeS 0 stC).buffSize
        (sizeS + 1) 0 ⟨data, 0⟩
        (if sizeS = 0 then progressCall (escapeNl (pyBasename name)) 1 1 stC
         else progressCall (escapeNl (pyBasename name)) sizeS 0 stC)
        hlen rfl (Nat.zero_le _) (by rw [hIfBuff]; exact hbuff) (by omega)
      rw [hrun]
      simp only []
      have hpend4 : (sendallB ['\x00'] st4).chan.pending = ['\x00'] :: rest := by
        show st4.chan.pending = _
        rw [h4chan, apply_ite ClientSt.chan, progressCall_chan, progressCall_chan,
          ite_self, hCpend]
      rw [recvConfirm_ack (sendallB ['\x00'] st4) rest hpend4]
      simp only []
      refine ⟨_, rfl, ?_⟩
      show st4.progressLog = _
      rw [h4log]
      rw [apply_ite ClientSt.progressLog, progressCall_progressLog, progressCall_progressLog,
        apply_ite ClientSt.hasProgress, progressCall_hasProgress, progressCall_hasProgress,
        ite_self, hCprog, hClog, hIfBuff]
      by_cases hp : st.hasProgress
      · by_cases hsz : sizeS = 0
        · subst hsz
          simp [hp, sendStopsF]
        · simp [hp, hsz]
      · simp [hp]
  · rcases hE : recvFile cmd stR with ⟨res, st2⟩
    rw [hE] at hok
    have hres : res = Except.ok () := hok
    subst hres
    unfold recvFile at hE
    rw [hpf] at hE
    simp only [] at hE
    split at hE
    · split at hE <;> exact absurd (congrArg Prod.fst hE) (by simp)
    · next buf bst heq =>
      obtain ⟨chunks, hne, hbuf, hlog⟩ := recvBodyLoop_progress sizeR nm _ _ _ _ _ _ _ heq rfl
      obtain ⟨hblen, -⟩ :=
        recvBodyLoop_consumes sizeR nm (sizeR + 1) _ 0 [] _ buf bst rfl (Nat.zero_le _) heq
      have hflat : chunks.flatten.length = sizeR := by
        rw [hbuf] at hblen
        simpa using hblen
      split at hE
      · exact absurd (congrArg Prod.fst hE) (by simp)
      · split at hE
        · exact absurd (congrArg Prod.fst hE) (by simp)
        · injection hE with h1 h2
          subst h2
          refine ⟨chunks, _, rfl, hne, hflat, ?_⟩
          show bst.progressLog = _
          rw [hlog]
          rw [show (sendallB ['\x00']
              (if sizeR = 0 then progressCall nm 1 1 stR
               else progressCall nm sizeR 0 stR)).progressLog
            = (if sizeR = 0 then progressCall nm 1 1 stR
               else progressCall nm sizeR 0 stR).progressLog from rfl]
          rw [show (sendallB ['\x00']
              (if sizeR = 0 then progressCall nm 1 1 stR
               else progressCall nm sizeR 0 stR)).hasProgress
            = (if sizeR = 0 then progressCall nm 1 1 stR
               else progressCall nm sizeR 0 stR).hasProgress from rfl]
          rw [apply_ite ClientSt.progressLog, progressCall_progressLog, progressCall_progressLog,
            apply_ite ClientSt.hasProgress, progressCall_hasProgress, progressCall_hasProgress,
            ite_self]
          by_cases hp : stR.hasProgress
          · by_cases hsz : sizeR = 0
            · subst hsz
              have hchunks : chunks = [] := flatten_nil_of_all_ne chunks hne hflat
              subst hchunks
              simp [hp, cumLens]
            · simp [hp, hsz]
          · simp [hp]

theorem c8_progress_reporting_witness :
    (∃ st', sendFile ⟨['h', 'i'], 0⟩ ['a'] ['0', '6', '4', '4'] 2
          (initSt false ⟨[['\x00'], ['\x00']], false⟩)
        = (.ok (), (⟨['h', 'i'], 2⟩ : FileObj), st')
        ∧ st'.progressLog = (initSt false ⟨[['\x00'], ['\x00']], false⟩).progressLog
            ++ (if (initSt false ⟨[['\x00'], ['\x00']], false⟩).hasProgress then
                  (if 2 = 0 then [(escapeNl (pyBasename ['a']), 1, 1)]
                   else (escapeNl (pyBasename ['a']), 2, 0)
                     :: (sendStopsF 2 (initSt false ⟨[['\x00'], ['\x00']], false⟩).buffSize
                          0 (2 + 1)).map (fun p => (escapeNl (pyBasename ['a']), 2, p)))
                else []))
    ∧ (∃ chunks stT,
        recvFile (fmtOct4 420 ++ ' ' :: (fmtDec 0 ++ ' ' :: ['a']))
            (initSt false ⟨[['\x00']], false⟩)
          = (.ok (), stT)
        ∧ (∀ c ∈ chunks, c ≠ [])
        ∧ chunks.flatten.length = 0
        ∧ stT.progressLog = (initSt false ⟨[['\x00']], false⟩).progressLog
            ++ (if (initSt false ⟨[['\x00']], false⟩).hasProgress then
                  (if 0 = 0 then [(['a'], 1, 1)]
                   else (['a'], 0, 0) :: (cumLens 0 chunks).map (fun p => (['a'], 0, p)))
                else [])) :=
  c8_progress_reporting ['a'] ['0', '6', '4', '4'] ['h', 'i'] 2
    (initSt false ⟨[['\x00'], ['\x00']], false⟩) []
    (fmtOct4 420 ++ ' ' :: (fmtDec 0 ++ ' ' :: ['a'])) 420 0 ['a']
    (initSt false ⟨[['\x00']], false⟩)
    (by decide) rfl (by decide)
    (parseFileLine_inv 420 0 ['a'] (by decide)
      (by intro c hc; simp at hc; subst hc; decide))
    (by
      unfold recvFile
      rw [parseFileLine_inv 420 0 ['a'] (by decide)
        (by intro c hc; simp at hc; subst hc; decide)]
      decide)

/-! ## Claim C4 — channel close discipline -/

lemma progressCall_chanClosed (n : B) (t s : Nat) (st : ClientSt) :
    (progressCall n t s st).chanClosed = st.chanClosed := by
  unfold progressCall; split <;> rfl

/-- `_recv_confirm` never touches the closed flag. -/
lemma recvConfirm_chanClosed (st : ClientSt) :
    (recvConfirm st).2.chanClosed = st.chanClosed := by
  unfold recvConfirm
  split
  · rfl
  · simp only []
    split
    · rfl
    · split
      · rfl
      · split
        · rfl
        · split <;> rfl

lemma sendFileLoop_chanClosed (size : Nat) (name : B) (buff : Nat) :
    ∀ (fuel pos : Nat) (fl : FileObj) (st : ClientSt) (res : Except PyErr Unit)
      (fl' : FileObj) (st' : ClientSt),
      sendFileLoop size name buff pos fl st fuel = (res, fl', st') →
      st'.chanClosed = st.chanClosed := by
  intro fuel
  induction fuel with
  | zero =>
    intro pos fl st res fl' st' h
    rw [sendFileLoop] at h
    split at h <;>
      (injection h with h1 h2; injection h2 with h2a h2b; subst h2b; rfl)
  | succ fuel ih =>
    intro pos fl st res fl' st' h
    rw [sendFileLoop] at h
    by_cases hlt : pos < size
    · rw [if_pos hlt] at h
      simp only [flRead] at h
      have := ih _ _ _ _ _ _ h
      rw [this, progressCall_chanClosed]
      rfl
    · rw [if_neg hlt] at h
      injection h with h1 h2; injection h2 with h2a h2b; subst h2b; rfl

/-- `_send_file` never touches the closed flag, on any path. -/
lemma sendFile_chanClosed (fl : FileObj) (name mode : B) (size : Nat) (st : ClientSt)
    (res : Except PyErr Unit) (fl' : FileObj) (st' : ClientSt)
    (h : sendFile fl name mode size st = (res, fl', st')) :
    st'.chanClosed = st.chanClosed := by
  unfold sendFile at h
  simp only [] at h
  split at h
  · next e stE heq =>
    injection h with h1 h2; injection h2 with h2a h2b; subst h2b
    have hE := congrArg (fun p => p.2.chanClosed) heq
    simp only [] at hE
    rw [recvConfirm_chanClosed] at hE
    exact hE.symm.trans rfl
  · next stC heq =>
    have hC := congrArg (fun p => p.2.chanClosed) heq
    simp only [] at hC
    rw [recvConfirm_chanClosed] at hC
    split at h
    · next e2 fl2 st2 heq2 =>
      injection h with h1 h2; injection h2 with h2a h2b; subst h2b
      have h2c := sendFileLoop_chanClosed _ _ _ _ _ _ _ _ _ _ heq2
      rw [apply_ite ClientSt.chanClosed, progressCall_chanClosed, progressCall_chanClosed,
        ite_self] at h2c
      rw [h2c, ← hC]
      rfl
    · next fl3 st3 heq2 =>
      have h3 := sendFileLoop_chanClosed _ _ _ _ _ _ _ _ _ _ heq2
      rw [apply_ite ClientSt.chanClosed, progressCall_chanClosed, progressCall_chanClosed,
        ite_self] at h3
      split at h
      · next e4 st4 heq4 =>
        injection h with h1 h2; injection h2 with h2a h2b; subst h2b
        have h4 := congrArg (fun p => p.2.chanClosed) heq4
        simp only [] at h4
        rw [recvConfirm_chanClosed] at h4
        rw [← h4, show (sendallB ['\x00'] st3).chanClosed = st3.chanClosed from rfl, h3, ← hC]
        rfl
      · next st4 heq4 =>
        injection h with h1 h2; injection h2 with h2a h2b; subst h2b
        have h4 := congrArg (fun p => p.2.chanClosed) heq4
        simp only [] at h4
        rw [recvConfirm_chanClosed] at h4
        rw [← h4, show (sendallB ['\x00'] st3).chanClosed = st3.chanClosed from rfl, h3, ← hC]
        rfl

lemma sendTime_chanClosed (mt at' : Nat) (st : ClientSt) :
    (sendTime mt at' st).2.chanClosed = st.chanClosed := by
  unfold sendTime
  rw [recvConfirm_chanClosed]
  rfl

/-- `_send_files` never touches the closed flag, on any path. -/
lemma sendFiles_chanClosed (preserve : Bool) :
    ∀ (plans : List FilePlan) (st : ClientSt) (res : Except PyErr Unit) (st' : ClientSt),
      sendFiles preserve plans st = (res, st') → st'.chanClosed = st.chanClosed := by
  intro plans
  induction plans with
  | nil =>
    intro st res st' h
    rw [sendFiles] at h
    injection h with h1 h2; subst h2; rfl
  | cons p ps ih =>
    intro st res st' h
    rw [sendFiles] at h
    split at h
    · next e stT heq =>
      injection h with h1 h2; subst h2
      have hT := congrArg (fun q => q.2.chanClosed) heq
      simp only [] at hT
      rw [apply_ite (fun q : Except PyErr Unit × ClientSt => q.2.chanClosed),
        sendTime_chanClosed] at hT
      simp only [] at hT
      rw [ite_self] at hT
      exact hT.symm
    · next stT heq =>
      have hT := congrArg (fun q => q.2.chanClosed) heq
      simp only [] at hT
      rw [apply_ite (fun q : Except PyErr Unit × ClientSt => q.2.chanClosed),
        sendTime_chanClosed] at hT
      simp only [] at hT
      rw [ite_self] at hT
      split at h
      · next e2 fl2 st2 heq2 =>
        injection h with h1 h2; subst h2
        have h2c := sendFile_chanClosed _ _ _ _ _ _ _ _ heq2
        rw [h2c, ← hT]
      · next fl2 st2 heq2 =>
        have h2c := sendFile_chanClosed _ _ _ _ _ _ _ _ heq2
        have := ih _ _ _ h
        rw [this, h2c, ← hT]

/-- C4 counterexample: `put` over a channel whose peer answers the
first confirmation with `\x01` raises, and the returned state still has
`chanClosed = false` — there is no `try`/`finally` around lines 208–219,
so the `self.close()` on line 219 is skipped on the error path. -/
theorem c4_channel_left_open_counterexample :
    (putOp false [] (initSt false ⟨[['\x01']], false⟩)).1 = .error (.scp "")
      ∧ ((putOp false [] (initSt false ⟨[['\x01']], false⟩)).2).chanClosed = false :=
  ⟨rfl, rfl⟩

/-- C4 (corrected): `put`, `putfo` and `getfo` close the channel on the
successful exit path only.  When the operation aborts with an error,
`put` and `putfo` return with the channel still open: nothing on the
send side ever sets the closed flag, and the `self.close()` call is
only reached after every confirmation has succeeded. -/
theorem c4_close_on_success_only :
    (∀ (preserve : Bool) (plans : List FilePlan) (st st' : ClientSt),
        putOp preserve plans st = (.ok (), st') → st'.chanClosed = true)
      ∧ (∀ (preserve : Bool) (plans : List FilePlan) (st : ClientSt) (e : PyErr)
          (st' : ClientSt),
          putOp preserve plans st = (.error e, st') → st'.chanClosed = false)
      ∧ (∀ (d rp md : B) (sz : Nat) (st st' : ClientSt),
          putfoOp d rp md sz st = (.ok (), st') → st'.chanClosed = true)
      ∧ (∀ (d rp md : B) (sz : Nat) (st : ClientSt) (e : PyErr) (st' : ClientSt),
          putfoOp d rp md sz st = (.error e, st') → st'.chanClosed = false)
      ∧ (∀ (st : ClientSt) (fuel : Nat) (fs : List TFile) (st' : ClientSt),
          getfoOp st fuel = (.ok fs, st') → st'.chanClosed = true) := by
  refine ⟨?_, ?_, ?_, ?_, ?_⟩
  · intro preserve plans st st' h
    unfold putOp at h
    simp only [] at h
    split at h
    · exact absurd (congrArg Prod.fst h) (by simp)
    · split at h
      · exact absurd (congrArg Prod.fst h) (by simp)
      · injection h with h1 h2; subst h2; rfl
  · intro preserve plans st e st' h
    unfold putOp at h
    simp only [] at h
    split at h
    · next e1 stE heq =>
      injection h with h1 h2; subst h2
      have hE := congrArg (fun p => p.2.chanClosed) heq
      simp only [] at hE
      rw [recvConfirm_chanClosed] at hE
      exact hE.symm.trans rfl
    · next stC heq =>
      have hE := congrArg (fun p => p.2.chanClosed) heq
      simp only [] at hE
      rw [recvConfirm_chanClosed] at hE
      split at h
      · next e2 st2 heq2 =>
        injection h with h1 h2; subst h2
        have h2c := sendFiles_chanClosed preserve _ _ _ _ heq2
        rw [h2c, ← hE]
      · exact absurd (congrArg Prod.fst h) (by simp)
  · intro d rp md sz st st' h
    unfold putfoOp at h
    simp only [] at h
    split at h
    · exact absurd (congrArg Prod.fst h) (by simp)
    · split at h
      · exact absurd (congrArg Prod.fst h) (by simp)
      · injection h with h1 h2; subst h2; rfl
  · intro d rp md sz st e st' h
    unfold putfoOp at h
    simp only [] at h
    split at h
    · next e1 stE heq =>
      injection h with h1 h2; subst h2
      have hE := congrArg (fun p => p.2.chanClosed) heq
      simp only [] at hE
      rw [recvConfirm_chanClosed] at hE
      exact hE.symm.trans rfl
    · next stC heq =>
      have hE := congrArg (fun p => p.2.chanClosed) heq
      simp only [] at hE
      rw [recvConfirm_chanClosed] at hE
      split at h
      · next e2 fl2 st2 heq2 =>
        injection h with h1 h2; subst h2
        have h2c := sendFile_chanClosed _ _ _ _ _ _ _ _ heq2
        rw [h2c, ← hE]
      · exact absurd (congrArg Prod.fst h) (by simp)
  · intro st fuel fs st' h
    unfold getfoOp at h
    simp only [] at h
    split at h
    · injection h with h1 h2; subst h2; rfl
    · exact absurd (congrArg Prod.fst h) (by simp)

theorem c4_close_on_success_only_witness :
    putOp false [] (initSt false ⟨[['\x00']], false⟩)
        = (.ok (), (putOp false [] (initSt false ⟨[['\x00']], false⟩)).2)
      ∧ ((putOp false [] (initSt false ⟨[['\x00']], false⟩)).2).chanClosed = true :=
  ⟨by decide,
   c4_close_on_success_only.1 false [] (initSt false ⟨[['\x00']], false⟩)
     (putOp false [] (initSt false ⟨[['\x00']], false⟩)).2 (by decide)⟩
